import Mathlib

/-!
Verification of the bonfire UDP rendezvous library: a shallow embedding of
the message codec (bonfire.go), the dual-indexed mingle set (zset.go), the
server packet handler and the peer state machine (peer.go), together with
theorems about the claimed properties.

Modeling conventions:
- Go byte slices are List Nat (each entry a byte value).
- Go strings are Lean String, manipulated as List Char.
- Go net.Addr values are represented by their String() form, since the code
  only ever uses addresses through String() and as map keys.
- Go time.Time values are Nat timestamps; time.Time.After is strict greater.
- Fallible Go functions returning (value, error) become Option or Except.
-/

namespace Bonfire

/-! ### Go strconv / net string helpers (Go standard library semantics)

These reproduce the parts of the Go standard library that
bonfire.go and peer.go call: net.SplitHostPort, net.ParseIP, IP.To4,
IP.To16, IP.String, net.JoinHostPort, strconv.ParseUint, strconv.Itoa. -/

/-- Go net internal dtoi: read a decimal prefix; returns (value, chars consumed, ok).
Fails on empty digit run or when the accumulator reaches 0xFFFFFF. -/
def dtoiLoop : List Char → Nat → Nat → Nat × Nat × Bool
  | c :: rest, n, i =>
    if '0' ≤ c ∧ c ≤ '9' then
      let n' := n * 10 + (c.toNat - '0'.toNat)
      if n' ≥ 0xFFFFFF then (0xFFFFFF, i, false)
      else dtoiLoop rest n' (i + 1)
    else if i = 0 then (0, 0, false) else (n, i, true)
  | [], n, i => if i = 0 then (0, 0, false) else (n, i, true)

def dtoi (s : List Char) : Nat × Nat × Bool := dtoiLoop s 0 0

/-- Go net internal xtoi: read a hexadecimal prefix; returns (value, chars consumed, ok). -/
def xtoiLoop : List Char → Nat → Nat → Nat × Nat × Bool
  | c :: rest, n, i =>
    if '0' ≤ c ∧ c ≤ '9' then
      let n' := n * 16 + (c.toNat - '0'.toNat)
      if n' ≥ 0xFFFFFF then (0, i, false) else xtoiLoop rest n' (i + 1)
    else if 'a' ≤ c ∧ c ≤ 'f' then
      let n' := n * 16 + (c.toNat - 'a'.toNat) + 10
      if n' ≥ 0xFFFFFF then (0, i, false) else xtoiLoop rest n' (i + 1)
    else if 'A' ≤ c ∧ c ≤ 'F' then
      let n' := n * 16 + (c.toNat - 'A'.toNat) + 10
      if n' ≥ 0xFFFFFF then (0, i, false) else xtoiLoop rest n' (i + 1)
    else if i = 0 then (0, i, false) else (n, i, true)
  | [], n, i => if i = 0 then (0, i, false) else (n, i, true)

def xtoi (s : List Char) : Nat × Nat × Bool := xtoiLoop s 0 0

/-- The 12-byte header that embeds an IPv4 address inside a 16-byte IP
(Go net v4InV6Prefix). -/
def v4InV6Pre : List Nat := [0, 0, 0, 0, 0, 0, 0, 0, 0, 0, 0xff, 0xff]

/-- Go net parseIPv4 for one dotted field: dtoi, bounded by 0xFF. -/
def parseIPv4Field (s : List Char) : Option (Nat × List Char) :=
  let (n, c, ok) := dtoi s
  if ok ∧ n ≤ 0xFF then some (n, s.drop c) else none

/-- Go net parseIPv4: exactly four dot-separated decimal fields consuming the
whole string, returned in the 16-byte IPv4-in-IPv6 form (as net.ParseIP does). -/
def parseIPv4 (s : List Char) : Option (List Nat) :=
  if s.isEmpty then none
  else match parseIPv4Field s with
  | none => none
  | some (n0, s) =>
    match s with
    | '.' :: s =>
      match parseIPv4Field s with
      | none => none
      | some (n1, s) =>
        match s with
        | '.' :: s =>
          match parseIPv4Field s with
          | none => none
          | some (n2, s) =>
            match s with
            | '.' :: s =>
              match parseIPv4Field s with
              | none => none
              | some (n3, s) =>
                if s.isEmpty then some (v4InV6Pre ++ [n0, n1, n2, n3]) else none
            | _ => none
        | _ => none
    | _ => none

/-- Go net parseIPv6, tail of the loop: the string must be exhausted; if fewer
than 16 bytes were produced an ellipsis must be present and is zero-expanded. -/
def parseIPv6Finish (i : Nat) (ell : Option Nat) (acc : List Nat) (s : List Char) :
    Option (List Nat) :=
  if s ≠ [] then none
  else if i < 16 then
    match ell with
    | none => none
    | some e => some (acc.take e ++ List.replicate (16 - i) 0 ++ acc.drop e)
  else
    match ell with
    | some _ => none
    | none => some acc

/-- Go net parseIPv6 main loop. The fuel argument bounds the iteration count
(at most 8 groups of 16 bits each); i counts bytes produced so far, ell is the
byte position of a double colon if one was seen, acc holds the bytes. -/
def parseIPv6Loop : Nat → List Char → Nat → Option Nat → List Nat → Option (List Nat)
  | fuel, s, i, ell, acc =>
    if i < 16 then
      match fuel with
      | 0 => none
      | fuel + 1 =>
        let (n, c, ok) := xtoi s
        if ¬ok ∨ n > 0xFFFF then none
        else if c < s.length ∧ s.get? c = some '.' then
          if ell = none ∧ i ≠ 12 then none
          else if i + 4 > 16 then none
          else
            match parseIPv4 s with
            | none => none
            | some ip4 => parseIPv6Finish (i + 4) ell (acc ++ ip4.drop 12) []
        else
          let acc := acc ++ [n / 256, n % 256]
          let i := i + 2
          let s := s.drop c
          if s = [] then parseIPv6Finish i ell acc []
          else
            match s with
            | ':' :: rest =>
              if rest = [] then none
              else
                match rest with
                | ':' :: rest2 =>
                  if ell ≠ none then none
                  else if rest2 = [] then parseIPv6Finish i (some i) acc []
                  else parseIPv6Loop fuel rest2 i (some i) acc
                | _ => parseIPv6Loop fuel rest i ell acc
            | _ => none
    else parseIPv6Finish i ell acc s

/-- Go net parseIPv6 (zones are not modeled; the repository never passes a
zoned address). Handles a leading double colon, then runs the group loop. -/
def parseIPv6 (s : List Char) : Option (List Nat) :=
  match s with
  | ':' :: ':' :: rest =>
    if rest = [] then some (List.replicate 16 0)
    else parseIPv6Loop 8 rest 0 (some 0) []
  | _ => parseIPv6Loop 8 s 0 none []

/-- Go net.ParseIP dispatch: the first dot or colon selects the v4 or v6 form. -/
def parseIPScan : List Char → Option Bool
  | [] => none
  | '.' :: _ => some true
  | ':' :: _ => some false
  | _ :: r => parseIPScan r

/-- Go net.ParseIP: returns the 16-byte representation, or none when invalid. -/
def parseIP (s : List Char) : Option (List Nat) :=
  match parseIPScan s with
  | some true => parseIPv4 s
  | some false => parseIPv6 s
  | none => none

/-- Go net.IP.To4: a 4-byte IP as is; a 16-byte IPv4-mapped IP reduced to
its last 4 bytes; nothing otherwise. -/
def to4 (ip : List Nat) : Option (List Nat) :=
  if ip.length = 4 then some ip
  else if ip.length = 16 ∧ (ip.take 10).all (· = 0) ∧
      ip.get? 10 = some 0xff ∧ ip.get? 11 = some 0xff then
    some (ip.drop 12)
  else none

/-- Go net.IP.To16: a 4-byte IP is widened with the v4-in-v6 header; a
16-byte IP is returned as is. -/
def to16 (ip : List Nat) : Option (List Nat) :=
  if ip.length = 4 then some (v4InV6Pre ++ ip)
  else if ip.length = 16 then some ip
  else none

/-- Go strconv.Itoa on a nonnegative value: decimal digits, no sign. -/
def itoa (n : Nat) : List Char := Nat.toDigits 10 n

/-- Go net appendHex: lowercase hexadecimal without leading zeros. -/
def hexStr (n : Nat) : List Char := Nat.toDigits 16 n

/-- Length of the zero run of 16-bit groups starting at index i. -/
def zeroRunAt (gs : List Nat) (i : Nat) : Nat :=
  ((gs.drop i).takeWhile (· = 0)).length

/-- Go net.IP.String zero-run search over the 8 groups: the first strictly
longest run wins; i advances past a recorded run. Fuel bounds the scan. -/
def bestRunGo : Nat → List Nat → Nat → Option (Nat × Nat) → Option (Nat × Nat)
  | 0, _, _, best => best
  | fuel + 1, gs, i, best =>
    if i ≥ gs.length then best
    else
      let j := i + zeroRunAt gs i
      let bestLen := (best.map Prod.snd).getD 0
      if j > i ∧ j - i > bestLen then bestRunGo fuel gs (j + 1) (some (i, j - i))
      else bestRunGo fuel gs (i + 1) best

/-- Go net.IP.String zero-run selection: runs of a single group are not
shortened with a double colon. -/
def bestRun (gs : List Nat) : Option (Nat × Nat) :=
  match bestRunGo 16 gs 0 none with
  | some (s, len) => if len ≤ 1 then none else some (s, len)
  | none => none

/-- The 8 16-bit groups of a 16-byte IP. -/
def groupsOf (ip : List Nat) : List Nat :=
  match ip with
  | [b0, b1, b2, b3, b4, b5, b6, b7, b8, b9, b10, b11, b12, b13, b14, b15] =>
    [b0 * 256 + b1, b2 * 256 + b3, b4 * 256 + b5, b6 * 256 + b7,
     b8 * 256 + b9, b10 * 256 + b11, b12 * 256 + b13, b14 * 256 + b15]
  | _ => []

/-- Go net.IP.String rendering of a 16-byte non-v4-mapped IP: hexadecimal
groups joined by colons, with the selected zero run collapsed to a double
colon. -/
def ipv6Render (gs : List Nat) : List Char :=
  match bestRun gs with
  | none => List.intercalate [':'] (gs.map hexStr)
  | some (s, len) =>
    List.intercalate [':'] ((gs.take s).map hexStr) ++ [':', ':'] ++
      List.intercalate [':'] ((gs.drop (s + len)).map hexStr)

/-- Dotted-quad rendering of a 4-byte IP. -/
def ipv4String (b : List Nat) : List Char :=
  match b with
  | [a, b2, c, d] => itoa a ++ '.' :: itoa b2 ++ '.' :: itoa c ++ '.' :: itoa d
  | _ => []

/-- Go hexString fallback used by net.IP.String on malformed lengths. -/
def ipHexDump (ip : List Nat) : List Char :=
  '?' :: ip.flatMap (fun b => hexStr (b / 16) ++ hexStr (b % 16))

/-- Go net.IP.String restricted to the shapes the codec produces: dotted quad
when To4 applies, compressed hexadecimal for other 16-byte IPs, the hex dump
fallback otherwise. -/
def ipString (ip : List Nat) : List Char :=
  match to4 ip with
  | some p4 => ipv4String p4
  | none => if ip.length = 16 then ipv6Render (groupsOf ip) else ipHexDump ip

/-- Go net.JoinHostPort: hosts containing a colon are bracketed. -/
def joinHostPort (host port : List Char) : List Char :=
  if host.contains ':' then '[' :: host ++ ']' :: ':' :: port
  else host ++ ':' :: port

/-- Index of the last occurrence of a character, if any. -/
def lastIdxOf (s : List Char) (c : Char) : Option Nat :=
  match s with
  | [] => none
  | x :: rest =>
    match lastIdxOf rest c with
    | some i => some (i + 1)
    | none => if x = c then some 0 else none

/-- Index of the first occurrence of a character, if any. -/
def firstIdxOf (s : List Char) (c : Char) : Option Nat :=
  match s with
  | [] => none
  | x :: rest =>
    if x = c then some 0
    else (firstIdxOf rest c).map (· + 1)

/-- Go net.SplitHostPort: splits host:port, handling the bracketed v6 form;
all error returns collapse to none. -/
def netSplitHostPort (hp : List Char) : Option (List Char × List Char) :=
  match lastIdxOf hp ':' with
  | none => none
  | some i =>
    if hp.head? = some '[' then
      match firstIdxOf hp ']' with
      | none => none
      | some e =>
        if e + 1 = hp.length then none
        else if e + 1 = i then
          if (hp.drop 1).contains '[' ∨ (hp.drop (e + 1)).contains ']' then none
          else some ((hp.take e).drop 1, hp.drop (i + 1))
        else none
    else
      let host := hp.take i
      if host.contains ':' then none
      else if hp.contains '[' ∨ hp.contains ']' then none
      else some (host, hp.drop (i + 1))

/-- One digit step of strconv.ParseUint with base 10 and bit size 16. -/
def parseUintStep (r : Option Nat) (c : Char) : Option Nat :=
  match r with
  | none => none
  | some n =>
    if '0' ≤ c ∧ c ≤ '9' then
      let n' := n * 10 + (c.toNat - '0'.toNat)
      if n' ≥ 65536 then none else some n'
    else none

/-- Go strconv.ParseUint with base 10 and bit size 16: nonempty digit string
whose value fits in 16 bits. -/
def parseUint16 (s : List Char) : Option Nat :=
  if s = [] then none else s.foldl parseUintStep (some 0)

/-! ### The codec of src/bonfire.go

Message, MarshalBinary and UnmarshalBinary as written in src/bonfire.go:
addresses are strings, a Meet body is just an address. -/

/-- MaxMessageSize from src/bonfire.go. -/
def MaxMessageSize : Nat := 85

/-- FingerprintSize: fingerprints are 64 bytes. -/
def FingerprintSize : Nat := 64

/-- Message type constants from src/bonfire.go (MessageType is a byte). -/
def HelloServer : Nat := 0

def HelloPeer : Nat := 1

def Meet : Nat := 2

def ReadyToMingle : Nat := 3

/-- The first invalid MessageType value. -/
def invalidType : Nat := 4

/-- Message from src/bonfire.go. Fingerprint is a byte slice, Type a byte;
the embedded HelloPeerBody and MeetBody each hold one address string, with
the empty string as the Go zero value when unused. -/
structure Message where
  fingerprint : List Nat
  typ : Nat
  helloPeerAddr : String
  meetAddr : String
deriving DecidableEq

/-- splitHostPort from src/bonfire.go: net.SplitHostPort, then net.ParseIP,
then To4 with a To16 fallback, then strconv.ParseUint for the port. -/
def splitHostPort (addr : String) : Option (List Nat × Nat) :=
  match netSplitHostPort addr.data with
  | none => none
  | some (ipStr, portStr) =>
    match parseIP ipStr with
    | none => none
    | some ip =>
      let ipB := match to4 ip with
        | some b => b
        | none => (to16 ip).getD ip
      match parseUint16 portStr with
      | none => none
      | some port => some (ipB, port)

/-- The body bytes of marshalAddr in Message.MarshalBinary: the zero proto
byte, the big-endian port, then the IP bytes. -/
def marshalAddrBytes (addr : String) : Option (List Nat) :=
  (splitHostPort addr).map (fun p => 0 :: p.2 / 256 :: p.2 % 256 :: p.1)

/-- Message.MarshalBinary from src/bonfire.go: version 0, the 64-byte
fingerprint, the type byte, then for HelloPeer and Meet the address body.
Returns the bytes plus an ok flag (Go returns the partial buffer and an
error; on failure the proto byte was already appended). The Go expression
m.Fingerprint[:64] panics on a shorter slice; theorems carry the 64-length
hypothesis, so the take models it. -/
def marshalBinary (m : Message) : List Nat × Bool :=
  let hdr := 0 :: m.fingerprint.take FingerprintSize ++ [m.typ]
  if m.typ = HelloPeer then
    match marshalAddrBytes m.helloPeerAddr with
    | some ab => (hdr ++ ab, true)
    | none => (hdr ++ [0], false)
  else if m.typ = Meet then
    match marshalAddrBytes m.meetAddr with
    | some ab => (hdr ++ ab, true)
    | none => (hdr ++ [0], false)
  else (hdr, true)

instance {ε α : Type} [DecidableEq ε] [DecidableEq α] : DecidableEq (Except ε α)
  | .ok a, .ok b => decidable_of_iff (a = b) (by simp)
  | .ok _, .error _ => isFalse (by simp)
  | .error _, .ok _ => isFalse (by simp)
  | .error e, .error f => decidable_of_iff (e = f) (by simp)

/-- The error cases of Message.UnmarshalBinary. -/
inductive MErr where
  | tooBig
  | tooShort
  | invalidVersion
  | invalidTyp
  | invalidProto
  | invalidIP
deriving DecidableEq

/-- unmarshalAddr from Message.UnmarshalBinary: a zero proto byte, two
big-endian port bytes, and the rest of the frame as a 4- or 16-byte IP,
rendered with net.JoinHostPort of the IP String form and the decimal port.
The read calls with the sticky error become explicit length patterns; the
nonzero-proto check precedes the truncated-port error, as in the source. -/
def unmarshalAddr : List Nat → Except MErr String
  | [] => .error .tooShort
  | [proto] =>
    if proto ≠ 0 then .error .invalidProto else .error .tooShort
  | [proto, _] =>
    if proto ≠ 0 then .error .invalidProto else .error .tooShort
  | proto :: p1 :: p2 :: ip =>
    if proto ≠ 0 then .error .invalidProto
    else if ip.length ≠ 4 ∧ ip.length ≠ 16 then .error .invalidIP
    else .ok (String.mk (joinHostPort (ipString ip) (itoa (p1 * 256 + p2))))

/-- Message.UnmarshalBinary from src/bonfire.go. The three header reads with
the sticky error collapse to the single length test against 66; unused body
fields come back as the Go zero value, the empty string. -/
def unmarshalBinary (b : List Nat) : Except MErr Message :=
  if b.length > MaxMessageSize then .error .tooBig
  else if b.length < 66 then .error .tooShort
  else
    let version := b.headD 0
    let fingerprint := (b.drop 1).take FingerprintSize
    let typ := (b.drop 65).headD 0
    if version ≠ 0 then .error .invalidVersion
    else if typ ≥ invalidType then .error .invalidTyp
    else if typ = HelloPeer then
      (unmarshalAddr (b.drop 66)).map (fun a => ⟨fingerprint, typ, a, ""⟩)
    else if typ = Meet then
      (unmarshalAddr (b.drop 66)).map (fun a => ⟨fingerprint, typ, "", a⟩)
    else .ok ⟨fingerprint, typ, "", ""⟩

/-! ### The current codec: Meet carries the introduced peer's fingerprint

Modelled from the spec: the repository's current bonfire.go (the version
whose MeetBody holds a Fingerprint next to the Addr) is not under src/; only
its test, TestMessage in src/bonfire_test.go, and its callers in src/peer.go
are. The definitions below follow the spec's account of that codec, with the
byte order of the Meet body fixed by the expected bytes of TestMessage:
the type byte is followed by the echoed 64-byte fingerprint and then the
address body (the address must come last because the IP length is inferred
from the remaining frame length). The frame ceiling grows accordingly from
85 to 149 bytes so that a Meet frame with a 16-byte IP still fits. -/

/-- Modelled from the spec: the maximum marshaled size of the current codec,
version + fingerprint + type + echoed fingerprint + proto + port + 16-byte
IP. The spec quotes 85 for the address-only codec of src/bonfire.go; the
Meet body of the current codec adds 64 echoed fingerprint bytes. -/
def MaxMessageSizeCur : Nat := 149

/-- Modelled from the spec: MinMessageSize, the 66-byte bodyless frame. -/
def MinMessageSize : Nat := 66

/-- Modelled from the spec: Message of the current codec; MeetBody carries
the echoed fingerprint of the peer being introduced in addition to its
address. -/
structure MessageCur where
  fingerprint : List Nat
  typ : Nat
  helloPeerAddr : String
  meetFingerprint : List Nat
  meetAddr : String
deriving DecidableEq

/-- Modelled from the spec: MarshalBinary of the current codec. A HelloPeer
body is the address alone; a Meet body is the echoed 64-byte fingerprint
followed by the address (the order the expected bytes of TestMessage in
src/bonfire_test.go fix). -/
def marshalBinaryCur (m : MessageCur) : List Nat × Bool :=
  let hdr := 0 :: m.fingerprint.take FingerprintSize ++ [m.typ]
  if m.typ = HelloPeer then
    match marshalAddrBytes m.helloPeerAddr with
    | some ab => (hdr ++ ab, true)
    | none => (hdr ++ [0], false)
  else if m.typ = Meet then
    match marshalAddrBytes m.meetAddr with
    | some ab => (hdr ++ m.meetFingerprint.take FingerprintSize ++ ab, true)
    | none => (hdr ++ m.meetFingerprint.take FingerprintSize ++ [0], false)
  else (hdr, true)

/-- Modelled from the spec: UnmarshalBinary of the current codec; a Meet
body is read as the echoed 64-byte fingerprint followed by the address. -/
def unmarshalBinaryCur (b : List Nat) : Except MErr MessageCur :=
  if b.length > MaxMessageSizeCur then .error .tooBig
  else if b.length < 66 then .error .tooShort
  else
    let version := b.headD 0
    let fingerprint := (b.drop 1).take FingerprintSize
    let typ := (b.drop 65).headD 0
    if version ≠ 0 then .error .invalidVersion
    else if typ ≥ invalidType then .error .invalidTyp
    else if typ = HelloPeer then
      (unmarshalAddr (b.drop 66)).map (fun a => ⟨fingerprint, typ, a, [], ""⟩)
    else if typ = Meet then
      let body := b.drop 66
      if body.length < FingerprintSize then .error .tooShort
      else
        (unmarshalAddr (body.drop FingerprintSize)).map
          (fun a => ⟨fingerprint, typ, "", body.take FingerprintSize, a⟩)
    else .ok ⟨fingerprint, typ, "", [], ""⟩

/-! ### The mingle set of src/zset.go

Two doubly-linked lists plus a map from address key to list elements. The
lists become Lean lists (timeL front = oldest, usageL front = most recently
used, back = never used); the map becomes its key set, since its values are
pointers into the lists and an element is recovered from its unique address
key. time.Now() becomes an explicit timestamp argument to add. -/

/-- zsetEl from src/zset.go: timestamp, address, fingerprint. -/
structure ZEl where
  t : Nat
  addr : String
  fingerprint : List Nat
deriving DecidableEq

/-- The zset state: both orderings plus the key set of the map m. -/
structure ZSet where
  timeL : List ZEl
  usageL : List ZEl
  m : List String
deriving DecidableEq

/-- newZSet: everything empty. -/
def newZSet : ZSet := ⟨[], [], []⟩

/-- Removal of the list element a map entry points to, located by its
unique address key. -/
def eraseFirstAddr (l : List ZEl) (a : String) : List ZEl :=
  l.eraseP (fun e => e.addr == a)

/-- In-place overwrite of the Value of the usage-list element a map entry
points to, located by its unique address key. -/
def updateFirstAddr : List ZEl → String → ZEl → List ZEl
  | [], _, _ => []
  | e :: rest, a, el => if e.addr = a then el :: rest else e :: updateFirstAddr rest a el

/-- zset.add from src/zset.go: on a known key remove its time-list element,
push the fresh element at the back of the time list, and overwrite its
usage-list element in place; on a new key push at the back of both lists and
record the key. -/
def zadd (z : ZSet) (now : Nat) (addr : String) (fp : List Nat) : ZSet :=
  let el : ZEl := ⟨now, addr, fp⟩
  if addr ∈ z.m then
    { timeL := eraseFirstAddr z.timeL addr ++ [el]
      usageL := updateFirstAddr z.usageL addr el
      m := z.m }
  else
    { timeL := z.timeL ++ [el]
      usageL := z.usageL ++ [el]
      m := z.m ++ [addr] }

/-- The collection loop of zset.get, walking the usage list from its back
(the argument list is the usage list reversed): stop once n elements are
collected or the list ends; skip elements not strictly newer than expire. -/
def zgetWalk (expire : Nat) : List ZEl → Nat → List ZEl
  | _, 0 => []
  | [], _ => []
  | e :: rest, n + 1 =>
    if expire < e.t then e :: zgetWalk expire rest n else zgetWalk expire rest (n + 1)

/-- list.MoveToFront of the element holding the given value, located by its
unique address key. -/
def moveToFrontAddr (l : List ZEl) (e : ZEl) : List ZEl :=
  e :: l.eraseP (fun x => x.addr == e.addr)

/-- zset.get from src/zset.go: collect up to n elements strictly newer than
expire walking from the never-used back of the usage list, then move each
collected element to the front in collection order. -/
def zget (z : ZSet) (n : Nat) (expire : Nat) : List ZEl × ZSet :=
  let zEls := zgetWalk expire z.usageL.reverse n
  (zEls, { z with usageL := zEls.foldl moveToFrontAddr z.usageL })

/-- The loop of zset.expire: pop time-list elements from the front while
they are not strictly newer than the cutoff, removing each from the usage
list and the key set as well. -/
def zexpireGo : List ZEl → List ZEl → List String → Nat → ZSet
  | [], u, m, _ => ⟨[], u, m⟩
  | e :: rest, u, m, cutoff =>
    if cutoff < e.t then ⟨e :: rest, u, m⟩
    else zexpireGo rest (eraseFirstAddr u e.addr) (m.erase e.addr) cutoff

/-- zset.expire from src/zset.go. -/
def zexpire (z : ZSet) (cutoff : Nat) : ZSet :=
  zexpireGo z.timeL z.usageL z.m cutoff

/-- One zset call, for reachability statements; add carries the time.Now()
value it observed. -/
inductive ZOp where
  | add (now : Nat) (addr : String) (fp : List Nat)
  | get (n : Nat) (expire : Nat)
  | exp (cutoff : Nat)

/-- State transition of one zset call. -/
def applyZOp (z : ZSet) : ZOp → ZSet
  | .add now addr fp => zadd z now addr fp
  | .get n e => (zget z n e).2
  | .exp c => zexpire z c

/-- The state after a call sequence starting from the empty set. -/
def runZOps (ops : List ZOp) : ZSet := ops.foldl applyZOp newZSet

/-- The time.Now() values the add calls of a sequence observed, in call
order. -/
def addTimes : List ZOp → List Nat
  | [] => []
  | .add now _ _ :: r => now :: addTimes r
  | _ :: r => addTimes r

/-! ### The peer of src/peer.go

PeerState holds the fields of Peer that processMessage, ReadFrom and the
peer table touch. net.Addr values are their String() forms; the send side
(multiSend) is recorded as the list of (destination, message) datagrams. -/

/-- The mutable peer fields used by processMessage and ReadFrom. -/
structure PeerState where
  lastFingerprint : List Nat
  lastServerAddr : String
  remoteAddr : Option String
  peers : List (String × String)
  maxPeers : Nat
  blastCount : Nat
deriving DecidableEq

/-- multiSend: the same datagram sent count times. -/
def multiSendCur (dst : String) (count : Nat) (msg : MessageCur) : List (String × MessageCur) :=
  List.replicate count (dst, msg)

/-- Go map insert on an association list with unique keys: overwrite the
entry of an existing key, append a fresh key. -/
def mapInsert (l : List (String × String)) (k v : String) : List (String × String) :=
  if l.any (fun kv => kv.1 = k) then
    l.map (fun kv => if kv.1 = k then (k, v) else kv)
  else l ++ [(k, v)]

/-- Peer.processMessage from src/peer.go. A Meet answers with a HelloPeer
blast to the introduced address carrying the echoed fingerprint; a HelloPeer
populates remoteAddr when unset, is dropped when it came from the server
address, evicts one arbitrary table entry when the table is full (Go ranges
a map and deletes the first key; the model drops the first entry, and the
stated properties do not depend on the choice), then records the source.
Other types do nothing. -/
def processMessage (p : PeerState) (addr : String) (msg : MessageCur) :
    PeerState × List (String × MessageCur) :=
  if msg.typ = Meet then
    (p, multiSendCur msg.meetAddr p.blastCount ⟨msg.meetFingerprint, HelloPeer, msg.meetAddr, [], ""⟩)
  else if msg.typ = HelloPeer then
    let p := if p.remoteAddr = none then { p with remoteAddr := some msg.helloPeerAddr } else p
    if addr = p.lastServerAddr then (p, [])
    else
      let peers := if p.peers.length ≥ p.maxPeers then p.peers.tail else p.peers
      ({ p with peers := mapInsert peers addr addr }, [])
  else (p, [])

/-- An incoming datagram: source address and payload bytes. -/
structure Packet where
  src : String
  data : List Nat
deriving DecidableEq

/-- Peer.ReadFrom from src/peer.go over a queue of incoming datagrams (the
buffer-size precondition assumed met): a datagram outside 66..149 bytes or
with a nonzero first byte is returned to the caller as application traffic,
as is one whose bytes 1..65 differ from the current fingerprint or that
fails to unmarshal; otherwise it is processed as a rendezvous message and
the loop continues. none models a read that blocks forever. -/
def readFrom (p : PeerState) : List Packet → Option (Nat × String × PeerState)
  | [] => none
  | pkt :: rest =>
    let n := pkt.data.length
    if n > MaxMessageSizeCur ∨ n < MinMessageSize ∨ pkt.data.headD 0 ≠ 0 then
      some (n, pkt.src, p)
    else if (pkt.data.drop 1).take FingerprintSize ≠ p.lastFingerprint then
      some (n, pkt.src, p)
    else
      match unmarshalBinaryCur pkt.data with
      | .error _ => some (n, pkt.src, p)
      | .ok msg => readFrom (processMessage p pkt.src msg).1 rest

/-- Peer-table evolution under a sequence of processed messages. -/
def processAll (p : PeerState) (evs : List (String × MessageCur)) : PeerState :=
  evs.foldl (fun st ev => (processMessage st ev.1 ev.2).1) p

/-! ### The server handler of src/unnamed/part_002

handlePacket unmarshals, applies the optional fingerprint check, then for a
HelloServer sends a Meet blast to every mingler the mingle set returned and,
when fewer minglers than PeersToMeet came back, a HelloPeer blast to the
sender carrying the sender's own source address; a ReadyToMingle adds the
sender to the mingle set. The minglers list is passed as the value
s.getMinglers(s.PeersToMeet) returned from the mingle set. -/

/-- The server knobs handlePacket reads. -/
structure ServerConfig where
  packetBlastCount : Nat
  peersToMeet : Nat
  fingerprintCheck : Option (List Nat → Bool)

/-- multiSend on the server side. -/
def multiSendSrv (dst : String) (count : Nat) (msg : Message) : List (String × Message) :=
  List.replicate count (dst, msg)

/-- Server.handlePacket from src/unnamed/part_002: returns the datagrams
sent and, for a ReadyToMingle, the address handed to addMingler. -/
def handlePacket (cfg : ServerConfig) (minglers : List String) (b : List Nat) (src : String) :
    List (String × Message) × Option String :=
  match unmarshalBinary b with
  | .error _ => ([], none)
  | .ok msg =>
    if (cfg.fingerprintCheck.map (fun check => check msg.fingerprint)).getD true = false then
      ([], none)
    else if msg.typ = HelloServer then
      (minglers.flatMap (fun ma =>
          multiSendSrv ma cfg.packetBlastCount ⟨msg.fingerprint, Meet, "", src⟩) ++
        (if minglers.length < cfg.peersToMeet then
          multiSendSrv src cfg.packetBlastCount ⟨msg.fingerprint, HelloPeer, src, ""⟩
        else []), none)
    else if msg.typ = ReadyToMingle then ([], some src)
    else ([], none)

/-! ### Shape lemmas about the address parsing chain -/

theorem parseUintStep_none (l : List Char) :
    l.foldl parseUintStep none = none := by
  induction l with
  | nil => rfl
  | cons c rest ih => simpa [parseUintStep] using ih

theorem parseUintFold_bound (l : List Char) :
    ∀ acc p, acc < 65536 → l.foldl parseUintStep (some acc) = some p → p < 65536 := by
  induction l with
  | nil => intro acc p hacc h; cases h; exact hacc
  | cons c rest ih =>
    intro acc p hacc h
    simp only [List.foldl_cons, parseUintStep] at h
    split at h
    · split at h
      · rw [parseUintStep_none] at h; cases h
      · exact ih _ p (by omega) h
    · rw [parseUintStep_none] at h; cases h

theorem parseUint16_lt (s : List Char) (p : Nat) (h : parseUint16 s = some p) :
    p < 65536 := by
  unfold parseUint16 at h
  split at h
  · cases h
  · exact parseUintFold_bound s 0 p (by omega) h

set_option maxHeartbeats 1000000 in
theorem parseIPv4_length (s : List Char) (out : List Nat) (h : parseIPv4 s = some out) :
    out.length = 16 := by
  unfold parseIPv4 at h
  repeat' split at h
  all_goals cases h
  rfl

theorem parseIPv6Finish_length (i : Nat) (ell : Option Nat) (acc : List Nat)
    (s : List Char) (out : List Nat)
    (h : parseIPv6Finish i ell acc s = some out)
    (hacc : acc.length = i) (hell : ∀ e, ell = some e → e ≤ i) (hi : i ≤ 16) :
    out.length = 16 := by
  unfold parseIPv6Finish at h
  split at h
  · cases h
  · split at h
    · split at h
      · cases h
      · rename_i e
        cases h
        have he : e ≤ i := hell e rfl
        simp [List.length_take, List.length_replicate, hacc]
        omega
    · split at h
      · cases h
      · cases h; omega

set_option maxHeartbeats 1000000 in
theorem parseIPv6Loop_length (fuel : Nat) :
    ∀ (s : List Char) (i : Nat) (ell : Option Nat) (acc : List Nat) (out : List Nat),
    parseIPv6Loop fuel s i ell acc = some out →
    acc.length = i → (∀ e, ell = some e → e ≤ i) → i ≤ 16 → i % 2 = 0 →
    out.length = 16 := by
  induction fuel with
  | zero =>
    intro s i ell acc out h hacc hell hi hpar
    unfold parseIPv6Loop at h
    split at h
    · split at h
      · cases h
      · rename_i heq; exact absurd heq (by omega)
    · exact parseIPv6Finish_length i ell acc s out h hacc hell hi
  | succ fuel ih =>
    intro s i ell acc out h hacc hell hi hpar
    unfold parseIPv6Loop at h
    split at h
    case isTrue hlt =>
      split at h
      · rename_i heq; exact absurd heq (by omega)
      · rename_i fuel2 heq
        injection heq with heq2
        subst heq2
        dsimp only at h
        split at h
        · cases h
        · split at h
          · split at h
            · cases h
            · split at h
              · cases h
              · split at h
                · cases h
                · rename_i ip4 hip4
                  refine parseIPv6Finish_length _ _ _ _ _ h ?_ ?_ (by omega)
                  · have h16 : ip4.length = 16 := parseIPv4_length _ _ hip4
                    simp [hacc, h16]
                  · intro e he; have := hell e he; omega
          · repeat' split at h
            all_goals try cases h
            all_goals first
              | exact parseIPv6Finish_length _ _ _ _ _ h (by simp [hacc])
                  (by intro e he; first | (cases he; omega) | (have h9 := hell e he; omega)) (by omega)
              | exact ih _ _ _ _ _ h (by simp [hacc])
                  (by intro e he; first | (cases he; omega) | (have h9 := hell e he; omega)) (by omega) (by omega)
    case isFalse hge =>
      exact parseIPv6Finish_length i ell acc s out h hacc hell hi

theorem parseIPv6_length (s : List Char) (out : List Nat) (h : parseIPv6 s = some out) :
    out.length = 16 := by
  unfold parseIPv6 at h
  split at h
  · split at h
    · cases h; simp
    · exact parseIPv6Loop_length 8 _ 0 (some 0) [] out h rfl
        (fun e he => by cases he; omega) (by omega) (by omega)
  · exact parseIPv6Loop_length 8 _ 0 none [] out h rfl
      (fun e he => by cases he) (by omega) (by omega)

theorem parseIP_length (s : List Char) (out : List Nat) (h : parseIP s = some out) :
    out.length = 16 := by
  unfold parseIP at h
  rcases hscan : parseIPScan s with _ | b
  · rw [hscan] at h; cases h
  · rw [hscan] at h
    cases b
    · exact parseIPv6_length s out h
    · exact parseIPv4_length s out h

/-- What splitHostPort can return: the IP is 4 or 16 bytes and the port
fits in 16 bits. -/
theorem splitHostPort_shape (a : String) (ip : List Nat) (port : Nat)
    (h : splitHostPort a = some (ip, port)) :
    (ip.length = 4 ∨ ip.length = 16) ∧ port < 65536 := by
  unfold splitHostPort at h
  split at h
  · cases h
  · split at h
    · cases h
    · rename_i ip0 hip0
      have h16 : ip0.length = 16 := parseIP_length _ _ hip0
      split at h
      · rename_i b hb
        split at h
        · cases h
        · rename_i port0 hport0
          cases h
          refine ⟨?_, parseUint16_lt _ _ hport0⟩
          unfold to4 at hb
          split at hb
          · cases hb; omega
          · split at hb
            · cases hb; left; simp; omega
            · cases hb
      · split at h
        · cases h
        · rename_i port0 hport0
          cases h
          refine ⟨?_, parseUint16_lt _ _ hport0⟩
          have hg : (to16 ip0).getD ip0 = ip0 := by
            unfold to16
            rw [if_neg (by omega), if_pos h16]
            rfl
          rw [hg]
          right; exact h16

/-! ### Frame analysis lemmas -/

theorem frame_length (fp ab : List Nat) (t : Nat) (h : fp.length = 64) :
    (0 :: fp ++ t :: ab).length = 66 + ab.length := by
  simp [h]; omega

theorem frame_headD (fp ab : List Nat) (t : Nat) :
    (0 :: fp ++ t :: ab).headD 0 = 0 := rfl

theorem frame_drop1_take (fp ab : List Nat) (t : Nat) (h : fp.length = 64) :
    ((0 :: fp ++ t :: ab).drop 1).take 64 = fp := by
  have h1 : (0 :: fp ++ t :: ab).drop 1 = fp ++ t :: ab := rfl
  rw [h1, List.take_left' h]

theorem frame_drop65 (fp ab : List Nat) (t : Nat) (h : fp.length = 64) :
    (0 :: fp ++ t :: ab).drop 65 = t :: ab := by
  have h1 : (0 :: fp ++ t :: ab).drop 65 = ((0 :: fp ++ t :: ab).drop 1).drop 64 := by
    rw [List.drop_drop]
  rw [h1]
  have h2 : (0 :: fp ++ t :: ab).drop 1 = fp ++ t :: ab := rfl
  rw [h2, List.drop_left' h]

theorem frame_drop66 (fp ab : List Nat) (t : Nat) (h : fp.length = 64) :
    (0 :: fp ++ t :: ab).drop 66 = ab := by
  have h1 : (0 :: fp ++ t :: ab).drop 66 = ((0 :: fp ++ t :: ab).drop 65).drop 1 := by
    rw [List.drop_drop]
  rw [h1, frame_drop65 fp ab t h]
  rfl

/-- Unmarshaling a well-formed frame of the src/bonfire.go codec reduces to
the per-type body handling. -/
theorem unmarshalBinary_frame (fp ab : List Nat) (t : Nat)
    (h : fp.length = 64) (hlen : ab.length ≤ 19) (ht : t < 4) :
    unmarshalBinary (0 :: fp ++ t :: ab) =
      if t = HelloPeer then (unmarshalAddr ab).map (fun a => ⟨fp, t, a, ""⟩)
      else if t = Meet then (unmarshalAddr ab).map (fun a => ⟨fp, t, "", a⟩)
      else .ok ⟨fp, t, "", ""⟩ := by
  unfold unmarshalBinary
  simp only [FingerprintSize, MaxMessageSize, invalidType]
  rw [frame_length fp ab t h, frame_headD, frame_drop1_take fp ab t h,
    frame_drop65 fp ab t h, frame_drop66 fp ab t h]
  simp only [List.headD_cons]
  rw [if_neg (by omega), if_neg (by omega), if_neg (by omega), if_neg (by omega)]

/-- Unmarshaling a well-formed frame of the current codec reduces to the
per-type body handling. -/
theorem unmarshalBinaryCur_frame (fp ab : List Nat) (t : Nat)
    (h : fp.length = 64) (hlen : ab.length ≤ 83) (ht : t < 4) :
    unmarshalBinaryCur (0 :: fp ++ t :: ab) =
      if t = HelloPeer then (unmarshalAddr ab).map (fun a => ⟨fp, t, a, [], ""⟩)
      else if t = Meet then
        (if ab.length < FingerprintSize then .error .tooShort
        else (unmarshalAddr (ab.drop FingerprintSize)).map
          (fun a => ⟨fp, t, "", ab.take FingerprintSize, a⟩))
      else .ok ⟨fp, t, "", [], ""⟩ := by
  unfold unmarshalBinaryCur
  simp only [FingerprintSize, MaxMessageSizeCur, invalidType]
  rw [frame_length fp ab t h, frame_headD, frame_drop1_take fp ab t h,
    frame_drop65 fp ab t h, frame_drop66 fp ab t h]
  simp only [List.headD_cons]
  rw [if_neg (by omega), if_neg (by omega), if_neg (by omega), if_neg (by omega)]

/-- Unmarshaling the body bytes marshalAddr produced recovers the rendered
address. -/
theorem unmarshalAddr_bytes (ip : List Nat) (port : Nat)
    (hip : ip.length = 4 ∨ ip.length = 16) :
    unmarshalAddr (0 :: port / 256 :: port % 256 :: ip) =
      .ok (String.mk (joinHostPort (ipString ip) (itoa port))) := by
  have hrec : port / 256 * 256 + port % 256 = port := by omega
  simp only [unmarshalAddr]
  rw [if_neg (by simp), if_neg (by tauto), hrec]

/-- Reduction of UnmarshalBinary on an arbitrary well-sized frame. -/
theorem unmarshalBinary_reduce (b : List Nat) (hle : b.length ≤ 85) (hge : 66 ≤ b.length)
    (hv : b.headD 0 = 0) (ht4 : (b.drop 65).headD 0 < 4) :
    unmarshalBinary b =
      if (b.drop 65).headD 0 = HelloPeer then
        (unmarshalAddr (b.drop 66)).map
          (fun a => ⟨(b.drop 1).take 64, (b.drop 65).headD 0, a, ""⟩)
      else if (b.drop 65).headD 0 = Meet then
        (unmarshalAddr (b.drop 66)).map
          (fun a => ⟨(b.drop 1).take 64, (b.drop 65).headD 0, "", a⟩)
      else .ok ⟨(b.drop 1).take 64, (b.drop 65).headD 0, "", ""⟩ := by
  unfold unmarshalBinary
  simp only [FingerprintSize, MaxMessageSize, invalidType]
  rw [if_neg (by omega), if_neg (by omega), hv]
  rw [if_neg (by simp), if_neg (by omega)]

/-! ### Claim C3 and claim C9: codec rejection and bodyless-frame laxity -/

/-- C3: UnmarshalBinary returns an error for any input longer than 85 bytes;
for any input shorter than 66 bytes (truncated below the header field
boundaries); for any well-sized frame whose version byte is nonzero; for any
whose type byte is at least 4; and for any HelloPeer or Meet frame whose
body proto tag is nonzero, whose port bytes are truncated, or whose
remaining IP length is neither 4 nor 16. -/
theorem c3_unmarshal_rejects_malformed (b : List Nat) :
    (b.length > 85 → unmarshalBinary b = .error .tooBig) ∧
    (b.length ≤ 85 → b.length < 66 → unmarshalBinary b = .error .tooShort) ∧
    (b.length ≤ 85 → 66 ≤ b.length → b.headD 0 ≠ 0 →
      unmarshalBinary b = .error .invalidVersion) ∧
    (b.length ≤ 85 → 66 ≤ b.length → b.headD 0 = 0 → (b.drop 65).headD 0 ≥ 4 →
      unmarshalBinary b = .error .invalidTyp) ∧
    (b.length ≤ 85 → b.headD 0 = 0 →
      ((b.drop 65).headD 0 = HelloPeer ∨ (b.drop 65).headD 0 = Meet) →
      67 ≤ b.length → (b.drop 66).headD 0 ≠ 0 →
      unmarshalBinary b = .error .invalidProto) ∧
    (b.length ≤ 85 → b.headD 0 = 0 →
      ((b.drop 65).headD 0 = HelloPeer ∨ (b.drop 65).headD 0 = Meet) →
      66 ≤ b.length → b.length ≤ 68 → (b.drop 66).headD 0 = 0 →
      unmarshalBinary b = .error .tooShort) ∧
    (b.length ≤ 85 → b.headD 0 = 0 →
      ((b.drop 65).headD 0 = HelloPeer ∨ (b.drop 65).headD 0 = Meet) →
      69 ≤ b.length → (b.drop 66).headD 0 = 0 →
      b.length - 69 ≠ 4 → b.length - 69 ≠ 16 →
      unmarshalBinary b = .error .invalidIP) := by
  refine ⟨?_, ?_, ?_, ?_, ?_, ?_, ?_⟩
  · intro hbig
    unfold unmarshalBinary
    rw [if_pos (by simpa [MaxMessageSize] using hbig)]
  · intro hle hlt
    unfold unmarshalBinary
    rw [if_neg (by simp [MaxMessageSize]; omega), if_pos hlt]
  · intro hle hge hv
    unfold unmarshalBinary
    simp only [MaxMessageSize]
    rw [if_neg (by omega), if_neg (by omega), if_pos hv]
  · intro hle hge hv ht
    unfold unmarshalBinary
    simp only [MaxMessageSize, invalidType]
    rw [if_neg (by omega), if_neg (by omega), hv, if_neg (by simp), if_pos ht]
  · intro hle hv ht hge hproto
    have hred := unmarshalBinary_reduce b hle (by omega) hv
      (by rcases ht with h | h <;> rw [h] <;> decide)
    rw [hred]
    have haddr : unmarshalAddr (b.drop 66) = .error .invalidProto := by
      rcases hd : b.drop 66 with _ | ⟨p, rest⟩
      · have := congrArg List.length hd; simp at this; omega
      · have hp : p ≠ 0 := by rw [hd] at hproto; simpa using hproto
        rcases rest with _ | ⟨p1, rest1⟩
        · simp only [unmarshalAddr]; rw [if_pos (by simpa using hp)]
        · rcases rest1 with _ | ⟨p2, ip⟩
          · simp only [unmarshalAddr]; rw [if_pos (by simpa using hp)]
          · simp only [unmarshalAddr]; rw [if_pos (by simpa using hp)]
    rcases ht with h | h <;> rw [h] <;> simp [HelloPeer, Meet, haddr, Except.map]
  · intro hle hv ht hge hle68 hproto
    have hred := unmarshalBinary_reduce b hle (by omega) hv
      (by rcases ht with h | h <;> rw [h] <;> decide)
    rw [hred]
    have haddr : unmarshalAddr (b.drop 66) = .error .tooShort := by
      rcases hd : b.drop 66 with _ | ⟨p, rest⟩
      · rfl
      · have hp : p = 0 := by rw [hd] at hproto; simpa using hproto
        have hrlen : rest.length ≤ 1 := by
          have := congrArg List.length hd; simp at this; omega
        subst hp
        rcases rest with _ | ⟨x, rest2⟩
        · simp [unmarshalAddr]
        · rcases rest2 with _ | ⟨y, rest3⟩
          · simp [unmarshalAddr]
          · simp at hrlen
    rcases ht with h | h <;> rw [h] <;> simp [HelloPeer, Meet, haddr, Except.map]
  · intro hle hv ht hge hproto h4 h16
    have hred := unmarshalBinary_reduce b hle (by omega) hv
      (by rcases ht with h | h <;> rw [h] <;> decide)
    rw [hred]
    have haddr : unmarshalAddr (b.drop 66) = .error .invalidIP := by
      rcases hd : b.drop 66 with _ | ⟨p, rest⟩
      · have := congrArg List.length hd; simp at this; omega
      · have hp : p = 0 := by rw [hd] at hproto; simpa using hproto
        subst hp
        rcases rest with _ | ⟨p1, rest1⟩
        · have := congrArg List.length hd; simp at this; omega
        · rcases rest1 with _ | ⟨p2, ip⟩
          · have := congrArg List.length hd; simp at this; omega
          · have hiplen : ip.length = b.length - 69 := by
              have := congrArg List.length hd; simp at this; omega
            simp only [unmarshalAddr]
            rw [if_neg (by simp), if_pos (by omega)]
    rcases ht with h | h <;> rw [h] <;> simp [HelloPeer, Meet, haddr, Except.map]

/-- Witness for C3 at concrete malformed inputs, one per rejection case. -/
theorem c3_witness :
    unmarshalBinary (List.replicate 90 0) = .error .tooBig ∧
    unmarshalBinary (List.replicate 60 0) = .error .tooShort ∧
    unmarshalBinary (1 :: List.replicate 65 0) = .error .invalidVersion ∧
    unmarshalBinary (0 :: List.replicate 64 0 ++ [4]) = .error .invalidTyp ∧
    unmarshalBinary (0 :: List.replicate 64 0 ++ [1, 7]) = .error .invalidProto ∧
    unmarshalBinary (0 :: List.replicate 64 0 ++ [2, 0]) = .error .tooShort ∧
    unmarshalBinary (0 :: List.replicate 64 0 ++ [1, 0, 26, 10, 9]) = .error .invalidIP :=
  ⟨(c3_unmarshal_rejects_malformed _).1 (by decide),
   (c3_unmarshal_rejects_malformed _).2.1 (by decide) (by decide),
   (c3_unmarshal_rejects_malformed _).2.2.1 (by decide) (by decide) (by decide),
   (c3_unmarshal_rejects_malformed _).2.2.2.1 (by decide) (by decide) (by decide) (by decide),
   (c3_unmarshal_rejects_malformed _).2.2.2.2.1 (by decide) (by decide) (by decide) (by decide)
     (by decide),
   (c3_unmarshal_rejects_malformed _).2.2.2.2.2.1 (by decide) (by decide) (by decide) (by decide)
     (by decide) (by decide),
   (c3_unmarshal_rejects_malformed _).2.2.2.2.2.2 (by decide) (by decide) (by decide) (by decide)
     (by decide) (by decide) (by decide)⟩

/-- C9: for every input of length 66 to 85 with version byte 0 and type byte
0 (HelloServer) or 3 (ReadyToMingle), UnmarshalBinary succeeds, ignoring all
bytes past offset 66; and marshaling any such bodyless message always
produces exactly 66 bytes, so such trailing garbage can never be produced by
MarshalBinary. -/
theorem c9_bodyless_trailing_garbage (b : List Nat) (m : Message) :
    (66 ≤ b.length → b.length ≤ 85 → b.headD 0 = 0 →
      ((b.drop 65).headD 0 = HelloServer ∨ (b.drop 65).headD 0 = ReadyToMingle) →
      unmarshalBinary b = .ok ⟨(b.drop 1).take 64, (b.drop 65).headD 0, "", ""⟩) ∧
    ((m.typ = HelloServer ∨ m.typ = ReadyToMingle) → m.fingerprint.length = 64 →
      (marshalBinary m).1.length = 66) := by
  constructor
  · intro hge hle hv ht
    have hred := unmarshalBinary_reduce b hle hge hv
      (by rcases ht with h | h <;> rw [h] <;> decide)
    rw [hred]
    rcases ht with h | h <;> rw [h] <;>
      simp [HelloServer, ReadyToMingle, HelloPeer, Meet]
  · intro ht h64
    unfold marshalBinary
    rcases ht with h | h <;> rw [h] <;>
      simp [HelloServer, ReadyToMingle, HelloPeer, Meet, FingerprintSize,
        List.take_of_length_le (le_of_eq h64), h64]

/-- Witness for C9: a 70-byte ReadyToMingle frame with trailing garbage is
accepted, and a marshaled ReadyToMingle message is 66 bytes. -/
theorem c9_witness :
    unmarshalBinary (0 :: List.replicate 64 0 ++ [3, 9, 9, 9]) =
      .ok ⟨List.replicate 64 0, 3, "", ""⟩ ∧
    (marshalBinary ⟨List.replicate 64 0, ReadyToMingle, "", ""⟩).1.length = 66 := by
  constructor
  · exact ((c9_bodyless_trailing_garbage (0 :: List.replicate 64 0 ++ [3, 9, 9, 9])
      ⟨[], 0, "", ""⟩).1 (by decide) (by decide) (by decide) (by decide)).trans (by decide)
  · exact (c9_bodyless_trailing_garbage [] ⟨List.replicate 64 0, ReadyToMingle, "", ""⟩).2
      (Or.inr rfl) (by decide)

/-! ### Claim C2 and claim C1: codec round trip and the Meet body layout -/

/-- An address string is canonical when re-rendering its parsed form with
the unmarshaling renderer reproduces it exactly. -/
def canonicalAddr (a : String) : Bool :=
  match splitHostPort a with
  | none => false
  | some p => String.mk (joinHostPort (ipString p.1) (itoa p.2)) == a

/-- Unfolding of canonicalAddr. -/
theorem canonicalAddr_spec (a : String) (h : canonicalAddr a = true) :
    ∃ ip port, splitHostPort a = some (ip, port) ∧
      String.mk (joinHostPort (ipString ip) (itoa port)) = a := by
  unfold canonicalAddr at h
  split at h
  · cases h
  · rename_i p heq
    exact ⟨p.1, p.2, heq, by simpa using h⟩

/-- C2 amended: for every Message of one of the 4 types whose Fingerprint
is exactly 64 bytes, whose unused body address fields hold the zero value,
and whose used address (for HelloPeer and Meet) is a canonical address
string, unmarshal of marshal returns the message unchanged. The canonicality
condition is forced by the counterexample: marshaling parses the address
string and unmarshaling re-renders it, so any non-canonical spelling that
still parses comes back re-spelled. -/
theorem c2_roundtrip_amended (m : Message)
    (h64 : m.fingerprint.length = 64)
    (ht : m.typ < 4)
    (hbody : m.typ = HelloServer ∨ m.typ = ReadyToMingle →
      m.helloPeerAddr = "" ∧ m.meetAddr = "")
    (hhp : m.typ = HelloPeer → m.meetAddr = "" ∧ canonicalAddr m.helloPeerAddr = true)
    (hmt : m.typ = Meet → m.helloPeerAddr = "" ∧ canonicalAddr m.meetAddr = true) :
    unmarshalBinary (marshalBinary m).1 = .ok m := by
  obtain ⟨fp, t, ha, ma⟩ := m
  simp only [HelloServer, HelloPeer, Meet, ReadyToMingle] at h64 ht hbody hhp hmt ⊢
  interval_cases t
  · obtain ⟨hha, hma⟩ := hbody (Or.inl rfl)
    subst hha; subst hma
    have hm : (marshalBinary ⟨fp, 0, "", ""⟩).1 = 0 :: fp ++ 0 :: [] := by
      unfold marshalBinary
      simp [HelloPeer, Meet, FingerprintSize, List.take_of_length_le (le_of_eq h64)]
    rw [hm, unmarshalBinary_frame fp [] 0 h64 (by simp) (by omega)]
    simp [HelloPeer, Meet]
  · obtain ⟨hma, hcanon⟩ := hhp rfl
    subst hma
    obtain ⟨ip, port, hsp, hrender⟩ := canonicalAddr_spec _ hcanon
    obtain ⟨hiplen, hport⟩ := splitHostPort_shape _ _ _ hsp
    have hm : (marshalBinary ⟨fp, 1, ha, ""⟩).1 =
        0 :: fp ++ 1 :: (0 :: port / 256 :: port % 256 :: ip) := by
      unfold marshalBinary marshalAddrBytes
      rw [hsp]
      simp [HelloPeer, FingerprintSize, List.take_of_length_le (le_of_eq h64)]
    rw [hm, unmarshalBinary_frame fp _ 1 h64
      (by simp; rcases hiplen with h | h <;> omega) (by omega)]
    simp [HelloPeer, Meet, unmarshalAddr_bytes ip port hiplen, Except.map, hrender]
  · obtain ⟨hha, hcanon⟩ := hmt rfl
    subst hha
    obtain ⟨ip, port, hsp, hrender⟩ := canonicalAddr_spec _ hcanon
    obtain ⟨hiplen, hport⟩ := splitHostPort_shape _ _ _ hsp
    have hm : (marshalBinary ⟨fp, 2, "", ma⟩).1 =
        0 :: fp ++ 2 :: (0 :: port / 256 :: port % 256 :: ip) := by
      unfold marshalBinary marshalAddrBytes
      rw [hsp]
      simp [HelloPeer, Meet, FingerprintSize, List.take_of_length_le (le_of_eq h64)]
    rw [hm, unmarshalBinary_frame fp _ 2 h64
      (by simp; rcases hiplen with h | h <;> omega) (by omega)]
    simp [HelloPeer, Meet, unmarshalAddr_bytes ip port hiplen, Except.map, hrender]
  · obtain ⟨hha, hma⟩ := hbody (Or.inr rfl)
    subst hha; subst hma
    have hm : (marshalBinary ⟨fp, 3, "", ""⟩).1 = 0 :: fp ++ 3 :: [] := by
      unfold marshalBinary
      simp [HelloPeer, Meet, FingerprintSize, List.take_of_length_le (le_of_eq h64)]
    rw [hm, unmarshalBinary_frame fp [] 3 h64 (by simp) (by omega)]
    simp [HelloPeer, Meet]

/-- Counterexample to C2 as stated: the HelloPeer address 127.0.0.1:06666
(a leading zero in the port) has a 64-byte fingerprint and marshals without
error, yet unmarshal of marshal returns the address re-rendered as
127.0.0.1:6666, a different Message value. -/
theorem c2_counterexample :
    (⟨List.replicate 64 0, HelloPeer, "127.0.0.1:06666", ""⟩ : Message).fingerprint.length = 64 ∧
    (marshalBinary ⟨List.replicate 64 0, HelloPeer, "127.0.0.1:06666", ""⟩).2 = true ∧
    unmarshalBinary (marshalBinary
        ⟨List.replicate 64 0, HelloPeer, "127.0.0.1:06666", ""⟩).1 =
      .ok ⟨List.replicate 64 0, HelloPeer, "127.0.0.1:6666", ""⟩ ∧
    (⟨List.replicate 64 0, HelloPeer, "127.0.0.1:6666", ""⟩ : Message) ≠
      ⟨List.replicate 64 0, HelloPeer, "127.0.0.1:06666", ""⟩ := by
  refine ⟨by decide, by decide, by decide, by decide⟩

/-- Witness for the amended C2 at a concrete canonical HelloPeer message. -/
theorem c2_witness :
    unmarshalBinary (marshalBinary
        ⟨List.replicate 64 5, HelloPeer, "127.0.0.1:6666", ""⟩).1 =
      .ok ⟨List.replicate 64 5, HelloPeer, "127.0.0.1:6666", ""⟩ :=
  c2_roundtrip_amended ⟨List.replicate 64 5, HelloPeer, "127.0.0.1:6666", ""⟩
    (by decide) (by decide) (by decide) (by decide) (by decide)

/-- C1 amended: marshaling a Meet message of the current codec produces the
version byte, the 64-byte envelope fingerprint, type 2, then the echoed
64-byte fingerprint of the peer being introduced followed by the HelloPeer
address layout (proto tag 0, big-endian 16-bit port, 4- or 16-byte IP) - the
echoed fingerprint precedes the address, not the reverse - and unmarshaling
such a frame recovers both the address and the embedded fingerprint; the
wire frame thus carries the introduced peer fingerprint in addition to the
envelope fingerprint. -/
theorem c1_meet_frame_amended (envFp meetFp : List Nat) (a : String)
    (ip : List Nat) (port : Nat)
    (h1 : envFp.length = 64) (h2 : meetFp.length = 64)
    (hsp : splitHostPort a = some (ip, port))
    (hrender : String.mk (joinHostPort (ipString ip) (itoa port)) = a) :
    marshalBinaryCur ⟨envFp, Meet, "", meetFp, a⟩ =
      (0 :: envFp ++ Meet :: (meetFp ++ 0 :: port / 256 :: port % 256 :: ip), true) ∧
    unmarshalBinaryCur (0 :: envFp ++ Meet :: (meetFp ++ 0 :: port / 256 :: port % 256 :: ip)) =
      .ok ⟨envFp, Meet, "", meetFp, a⟩ := by
  obtain ⟨hiplen, hport⟩ := splitHostPort_shape _ _ _ hsp
  constructor
  · unfold marshalBinaryCur marshalAddrBytes
    rw [hsp]
    simp [HelloPeer, Meet, FingerprintSize, List.take_of_length_le (le_of_eq h1),
      List.take_of_length_le (le_of_eq h2)]
  · rw [unmarshalBinaryCur_frame envFp _ Meet h1
      (by simp only [List.length_append, List.length_cons, h2]; rcases hiplen with h | h <;> omega) (by decide)]
    rw [if_neg (by decide), if_pos rfl]
    rw [if_neg (by simp only [FingerprintSize, List.length_append, List.length_cons, h2]; omega)]
    rw [List.drop_left' (by simpa [FingerprintSize] using h2),
      List.take_left' (by simpa [FingerprintSize] using h2)]
    rw [unmarshalAddr_bytes ip port hiplen]
    simp [Except.map, hrender]

/-- Counterexample to C1 as stated: for a concrete Meet message the wire
frame is not the address layout followed by the echoed fingerprint; it is
the echoed fingerprint followed by the address layout, as the expected bytes
of TestMessage in src/bonfire_test.go fix (the address must come last since
the IP length is inferred from the remaining frame length). -/
theorem c1_counterexample :
    (marshalBinaryCur ⟨List.replicate 64 0, Meet, "",
        List.replicate 64 1, "127.0.0.1:6666"⟩).1 ≠
      0 :: List.replicate 64 0 ++ Meet ::
        ([0, 26, 10, 127, 0, 0, 1] ++ List.replicate 64 1) ∧
    (marshalBinaryCur ⟨List.replicate 64 0, Meet, "",
        List.replicate 64 1, "127.0.0.1:6666"⟩).1 =
      0 :: List.replicate 64 0 ++ Meet ::
        (List.replicate 64 1 ++ [0, 26, 10, 127, 0, 0, 1]) := by
  refine ⟨by decide, by decide⟩

/-- Witness for the amended C1 at a concrete Meet message. -/
theorem c1_witness :
    marshalBinaryCur ⟨List.replicate 64 0, Meet, "",
        List.replicate 64 1, "127.0.0.1:6666"⟩ =
      (0 :: List.replicate 64 0 ++ Meet ::
        (List.replicate 64 1 ++ 0 :: 26 :: 10 :: [127, 0, 0, 1]), true) ∧
    unmarshalBinaryCur (0 :: List.replicate 64 0 ++ Meet ::
        (List.replicate 64 1 ++ 0 :: 26 :: 10 :: [127, 0, 0, 1])) =
      .ok ⟨List.replicate 64 0, Meet, "", List.replicate 64 1, "127.0.0.1:6666"⟩ := by
  have h := c1_meet_frame_amended (List.replicate 64 0) (List.replicate 64 1)
    "127.0.0.1:6666" [127, 0, 0, 1] 6666 (by decide) (by decide) (by decide) (by decide)
  exact h


/-! ### Claims C4, C5 and C10: the mingle set -/

theorem updateFirstAddr_append (u1 : List ZEl) (e : ZEl) (u2 : List ZEl) (addr : String)
    (el : ZEl) (he : e.addr = addr) (hn : addr ∉ u1.map ZEl.addr) :
    updateFirstAddr (u1 ++ e :: u2) addr el = u1 ++ el :: u2 := by
  induction u1 with
  | nil => simp [updateFirstAddr, he]
  | cons x rest ih =>
    simp only [List.map_cons, List.mem_cons, not_or] at hn
    simp only [List.cons_append, updateFirstAddr, List.append_eq]
    rw [if_neg (fun hx => hn.1 hx.symm), ih hn.2]

def c4_scenario : ZSet :=
  zadd (zadd (zadd newZSet 1 "127.0.0.1:0" [0xa]) 2 "127.0.0.2:0" [0xb]) 3
    "127.0.0.1:0" [0xc]

/-- C4: zset.add on a new key appends the entry at the tail of both the
time ordering and the usage ordering; on an existing key it re-timestamps
the entry, moves it to the tail of the time order, updates the stored
fingerprint in place leaving its usage-order position unchanged, and never
creates duplicate entries (the key set and the usage-order address sequence
are unchanged). Concretely, after add(a); add(b); add(a) the time order is
[b, a], the usage order is [a, b] with the refreshed fingerprint stored at
the position of a, and the size is 2. -/
theorem c4_zset_add (z : ZSet) (now : Nat) (addr : String) (fp : List Nat) :
    (addr ∉ z.m →
      zadd z now addr fp =
        ⟨z.timeL ++ [⟨now, addr, fp⟩], z.usageL ++ [⟨now, addr, fp⟩], z.m ++ [addr]⟩) ∧
    (∀ u1 e u2, addr ∈ z.m → z.usageL = u1 ++ e :: u2 → e.addr = addr →
      (zadd z now addr fp).timeL = eraseFirstAddr z.timeL addr ++ [⟨now, addr, fp⟩] ∧
      (addr ∉ u1.map ZEl.addr →
        (zadd z now addr fp).usageL = u1 ++ ⟨now, addr, fp⟩ :: u2) ∧
      (zadd z now addr fp).m = z.m ∧
      (zadd z now addr fp).usageL.map ZEl.addr = z.usageL.map ZEl.addr) ∧
    (c4_scenario.timeL.map ZEl.addr = ["127.0.0.2:0", "127.0.0.1:0"] ∧
      c4_scenario.usageL.map ZEl.addr = ["127.0.0.1:0", "127.0.0.2:0"] ∧
      c4_scenario.usageL.map ZEl.fingerprint = [[0xc], [0xb]] ∧
      c4_scenario.m.length = 2) := by
  refine ⟨?_, ?_, by decide, by decide, by decide, by decide⟩
  · intro hnew
    unfold zadd
    rw [if_neg hnew]
  · intro u1 e u2 hmem husage he
    refine ⟨?_, ?_, ?_, ?_⟩
    · unfold zadd; rw [if_pos hmem]
    · intro hn1
      unfold zadd; rw [if_pos hmem]
      simp only [husage]
      exact updateFirstAddr_append u1 e u2 addr ⟨now, addr, fp⟩ he hn1
    · unfold zadd; rw [if_pos hmem]
    · unfold zadd; rw [if_pos hmem]
      simp only [husage]
      clear hmem husage
      induction u1 with
      | nil => simp [updateFirstAddr, he]
      | cons x rest ih =>
        simp only [List.cons_append, updateFirstAddr, List.append_eq]
        by_cases hx : x.addr = addr
        · simp [hx, he]
        · simp only [if_neg hx, List.map_cons, List.cons.injEq, true_and]
          exact ih

/-- Witness for C4: a fresh-key add and an existing-key add at concrete
states. -/
theorem c4_witness :
    zadd ⟨[⟨1, "a", [1]⟩], [⟨1, "a", [1]⟩], ["a"]⟩ 2 "b" [2] =
      ⟨[⟨1, "a", [1]⟩, ⟨2, "b", [2]⟩], [⟨1, "a", [1]⟩, ⟨2, "b", [2]⟩], ["a", "b"]⟩ ∧
    (zadd ⟨[⟨1, "a", [1]⟩, ⟨2, "b", [2]⟩], [⟨1, "a", [1]⟩, ⟨2, "b", [2]⟩], ["a", "b"]⟩
        3 "a" [3]).usageL = [] ++ ⟨3, "a", [3]⟩ :: [⟨2, "b", [2]⟩] := by
  constructor
  · exact (c4_zset_add ⟨[⟨1, "a", [1]⟩], [⟨1, "a", [1]⟩], ["a"]⟩ 2 "b" [2]).1 (by decide)
  · exact (((c4_zset_add ⟨[⟨1, "a", [1]⟩, ⟨2, "b", [2]⟩], [⟨1, "a", [1]⟩, ⟨2, "b", [2]⟩],
        ["a", "b"]⟩ 3 "a" [3]).2.1 [] ⟨1, "a", [1]⟩ [⟨2, "b", [2]⟩]
        (by decide) rfl rfl).2.1 (by decide))

/-- The collection loop of zset.get collects, in traversal order from the
never-used end, the first n entries strictly newer than the bound. -/
theorem zgetWalk_eq (expire : Nat) (l : List ZEl) :
    ∀ n, zgetWalk expire l n = (l.filter (fun e => expire < e.t)).take n := by
  induction l with
  | nil => intro n; cases n <;> rfl
  | cons e rest ih =>
    intro n
    cases n with
    | zero => rfl
    | succ n =>
      by_cases h : expire < e.t
      · simp [zgetWalk, List.filter_cons, h, ih]
      · simp [zgetWalk, List.filter_cons, h, ih]

/-- Iterated removal of the usage-list entries with the given address keys,
in order. -/
def eraseAllAddrs (u : List ZEl) (as : List String) : List ZEl :=
  as.foldl (fun acc a => acc.eraseP (fun x => x.addr == a)) u

/-- Entries whose address is not among the removed keys survive at their
position. -/
theorem eraseAllAddrs_cons_notmem (e : ZEl) (as : List String) :
    ∀ u, e.addr ∉ as → eraseAllAddrs (e :: u) as = e :: eraseAllAddrs u as := by
  induction as with
  | nil => intro u _; rfl
  | cons a rest ih =>
    intro u h
    simp only [List.mem_cons, not_or] at h
    simp only [eraseAllAddrs, List.foldl_cons]
    rw [List.eraseP_cons_of_neg (by simpa using h.1)]
    exact ih _ h.2

/-- Moving a duplicate-free batch of entries to the front in order leaves
the last-moved first, followed by the rest of the usage list. -/
theorem foldl_moveToFrontAddr (els : List ZEl) :
    ∀ u, (els.map ZEl.addr).Nodup →
      els.foldl moveToFrontAddr u = els.reverse ++ eraseAllAddrs u (els.map ZEl.addr) := by
  induction els with
  | nil => intro u _; rfl
  | cons e rest ih =>
    intro u h
    simp only [List.map_cons, List.nodup_cons] at h
    simp only [List.foldl_cons]
    rw [ih (moveToFrontAddr u e) h.2]
    unfold moveToFrontAddr
    rw [eraseAllAddrs_cons_notmem e _ _ h.1]
    simp only [List.map_cons, List.reverse_cons, List.append_assoc, List.cons_append,
      List.nil_append, eraseAllAddrs, List.foldl_cons]

/-- The five-entry mingle set of the get scenario of TestZSet. -/
def c5_set : ZSet :=
  zadd (zadd (zadd (zadd (zadd newZSet 1 "127.0.0.1:0" [0xa]) 2 "127.0.0.2:0" [0xb])
    3 "127.0.0.3:0" [0xc]) 4 "127.0.0.4:0" [0xd]) 5 "127.0.0.5:0" [0xe]

/-- C5: zset.get walks the usage order from the stale end, skips entries
not strictly newer than the minimum timestamp, collects up to n qualifying
entries in traversal order, and moves the collected entries to the opposite
end of the usage order (leaving the time order and key set untouched); a
get with a bound at or after every timestamp returns empty and changes
nothing, as does get(0, anything). Concretely, after inserting a, b, c, d, e
in order, get(2, zero) returns [e, d] leaving usage order [d, e, a, b, c]; a
subsequent get(6, zero) returns all five as [c, b, a, e, d] and leaves the
usage order [d, e, a, b, c]; and get(2, now) returns empty. -/
theorem c5_zset_get (z : ZSet) (n : Nat) (expire : Nat) :
    ((zget z n expire).1 = ((z.usageL.reverse).filter (fun e => expire < e.t)).take n) ∧
    ((zget z n expire).2.timeL = z.timeL ∧ (zget z n expire).2.m = z.m) ∧
    ((z.usageL.map ZEl.addr).Nodup →
      (zget z n expire).2.usageL =
        (zget z n expire).1.reverse ++
          eraseAllAddrs z.usageL ((zget z n expire).1.map ZEl.addr)) ∧
    ((∀ e ∈ z.usageL, e.t ≤ expire) → (zget z n expire).1 = [] ∧ (zget z n expire).2 = z) ∧
    ((zget z 0 expire).1 = [] ∧ (zget z 0 expire).2 = z) ∧
    ((zget c5_set 2 0).1.map ZEl.addr = ["127.0.0.5:0", "127.0.0.4:0"] ∧
      (zget c5_set 2 0).2.usageL.map ZEl.addr =
        ["127.0.0.4:0", "127.0.0.5:0", "127.0.0.1:0", "127.0.0.2:0", "127.0.0.3:0"] ∧
      (zget (zget c5_set 2 0).2 6 0).1.map ZEl.addr =
        ["127.0.0.3:0", "127.0.0.2:0", "127.0.0.1:0", "127.0.0.5:0", "127.0.0.4:0"] ∧
      (zget (zget c5_set 2 0).2 6 0).2.usageL.map ZEl.addr =
        ["127.0.0.4:0", "127.0.0.5:0", "127.0.0.1:0", "127.0.0.2:0", "127.0.0.3:0"] ∧
      (zget c5_set 2 5).1 = []) := by
  have hwalk : (zget z n expire).1 =
      ((z.usageL.reverse).filter (fun e => expire < e.t)).take n := by
    unfold zget
    exact zgetWalk_eq expire z.usageL.reverse n
  refine ⟨hwalk, ⟨rfl, rfl⟩, ?_, ?_, ?_,
    by decide, by decide, by decide, by decide, by decide⟩
  · intro hnodup
    have hnd : ((((z.usageL.reverse).filter (fun e => expire < e.t)).take n).map
        ZEl.addr).Nodup := by
      have hbig : ((z.usageL.reverse).map ZEl.addr).Nodup := by
        rw [List.map_reverse]
        exact List.nodup_reverse.mpr hnodup
      have hsub : (((z.usageL.reverse).filter (fun e => expire < e.t)).take n).Sublist
          z.usageL.reverse :=
        (List.take_sublist _ _).trans (List.filter_sublist _)
      exact List.Nodup.sublist (hsub.map ZEl.addr) hbig
    rw [hwalk]
    show (zget z n expire).2.usageL = _
    unfold zget
    dsimp only
    rw [zgetWalk_eq]
    exact foldl_moveToFrontAddr _ _ hnd
  · intro hall
    have hfil : (z.usageL.reverse).filter (fun e => expire < e.t) = [] := by
      rw [List.filter_eq_nil_iff]
      intro e he
      simp only [decide_eq_true_eq, not_lt]
      exact hall e (List.mem_reverse.mp he)
    constructor
    · rw [hwalk, hfil, List.take_nil]
    · unfold zget
      dsimp only
      rw [zgetWalk_eq, hfil, List.take_nil]
      rfl
  · constructor
    · unfold zget
      dsimp only
      rw [zgetWalk_eq, List.take_zero]
    · unfold zget
      dsimp only
      rw [zgetWalk_eq, List.take_zero]
      rfl

/-- Witness for C5: the usage rotation and the all-stale case at a concrete
two-entry set. -/
theorem c5_witness :
    (zget ⟨[⟨1, "a", [1]⟩, ⟨2, "b", [2]⟩], [⟨1, "a", [1]⟩, ⟨2, "b", [2]⟩], ["a", "b"]⟩
        1 0).2.usageL =
      (zget ⟨[⟨1, "a", [1]⟩, ⟨2, "b", [2]⟩], [⟨1, "a", [1]⟩, ⟨2, "b", [2]⟩], ["a", "b"]⟩
          1 0).1.reverse ++
        eraseAllAddrs [⟨1, "a", [1]⟩, ⟨2, "b", [2]⟩]
          ((zget ⟨[⟨1, "a", [1]⟩, ⟨2, "b", [2]⟩], [⟨1, "a", [1]⟩, ⟨2, "b", [2]⟩], ["a", "b"]⟩
            1 0).1.map ZEl.addr) ∧
    (zget ⟨[⟨1, "a", [1]⟩, ⟨2, "b", [2]⟩], [⟨1, "a", [1]⟩, ⟨2, "b", [2]⟩], ["a", "b"]⟩
        1 5).1 = [] := by
  constructor
  · exact (c5_zset_get ⟨[⟨1, "a", [1]⟩, ⟨2, "b", [2]⟩], [⟨1, "a", [1]⟩, ⟨2, "b", [2]⟩],
      ["a", "b"]⟩ 1 0).2.2.1 (by decide)
  · exact ((c5_zset_get ⟨[⟨1, "a", [1]⟩, ⟨2, "b", [2]⟩], [⟨1, "a", [1]⟩, ⟨2, "b", [2]⟩],
      ["a", "b"]⟩ 1 5).2.2.2.1 (by decide)).1

/-- The time-order list carries non-decreasing timestamps from oldest end
to newest end. -/
def TimeSorted (z : ZSet) : Prop :=
  z.timeL.Pairwise (fun e1 e2 => e1.t ≤ e2.t)

/-- zset.add preserves sortedness of the time order and bounds every
timestamp by the clock value it received. -/
theorem zadd_sorted (z : ZSet) (now : Nat) (addr : String) (fp : List Nat)
    (hs : TimeSorted z) (hb : ∀ e ∈ z.timeL, e.t ≤ now) :
    TimeSorted (zadd z now addr fp) ∧ ∀ e ∈ (zadd z now addr fp).timeL, e.t ≤ now := by
  unfold zadd TimeSorted
  split
  · constructor
    · apply List.pairwise_append.mpr
      refine ⟨List.Pairwise.sublist (List.eraseP_sublist _) hs,
        List.pairwise_singleton _ _, ?_⟩
      intro a ha b hb2
      simp only [List.mem_singleton] at hb2
      subst hb2
      exact hb a ((List.eraseP_sublist _).subset ha)
    · intro e he
      rcases List.mem_append.mp he with h | h
      · exact hb e ((List.eraseP_sublist _).subset h)
      · simp only [List.mem_singleton] at h; subst h; exact le_refl _
  · constructor
    · apply List.pairwise_append.mpr
      refine ⟨hs, List.pairwise_singleton _ _, ?_⟩
      intro a ha b hb2
      simp only [List.mem_singleton] at hb2
      subst hb2
      exact hb a ha
    · intro e he
      rcases List.mem_append.mp he with h | h
      · exact hb e h
      · simp only [List.mem_singleton] at h; subst h; exact le_refl _

/-- The expire loop leaves a sublist (in fact a suffix) of the time
order. -/
theorem zexpireGo_sublist (c : Nat) (l : List ZEl) :
    ∀ u m, (zexpireGo l u m c).timeL.Sublist l := by
  induction l with
  | nil => intro u m; exact List.Sublist.refl _
  | cons e rest ih =>
    intro u m
    unfold zexpireGo
    split
    · exact List.Sublist.refl _
    · exact (ih _ _).trans (List.sublist_cons_self _ _)

/-- On a sorted time order, the expire loop, which stops at the first
entry strictly newer than the cutoff, removes exactly the entries whose
timestamp is at or before the cutoff. -/
theorem zexpireGo_timeL_filter (c : Nat) (l : List ZEl) :
    ∀ u m, l.Pairwise (fun e1 e2 => e1.t ≤ e2.t) →
      (zexpireGo l u m c).timeL = l.filter (fun e => c < e.t) := by
  induction l with
  | nil => intro u m _; rfl
  | cons e rest ih =>
    intro u m hp
    rw [List.pairwise_cons] at hp
    unfold zexpireGo
    split
    case isTrue h =>
      rw [List.filter_cons, if_pos (by simpa using h)]
      have : rest.filter (fun e => c < e.t) = rest :=
        List.filter_eq_self.mpr (fun x hx => by
          simp only [decide_eq_true_eq]
          exact lt_of_lt_of_le h (hp.1 x hx))
      rw [this]
    case isFalse h =>
      rw [List.filter_cons, if_neg (by simpa using h)]
      exact ih _ _ hp.2

/-- Sortedness of the time order is preserved by any call sequence whose
add calls observe non-decreasing clock values. -/
theorem runFrom_sorted (ops : List ZOp) :
    ∀ z t0, TimeSorted z → (∀ e ∈ z.timeL, e.t ≤ t0) →
      List.Chain (· ≤ ·) t0 (addTimes ops) →
      TimeSorted (ops.foldl applyZOp z) := by
  induction ops with
  | nil => intro z t0 hs _ _; exact hs
  | cons op rest ih =>
    intro z t0 hs hb hchain
    cases op with
    | add now addr fp =>
      simp only [addTimes] at hchain
      rw [List.chain_cons] at hchain
      obtain ⟨h0, hchain⟩ := hchain
      have hb2 : ∀ e ∈ z.timeL, e.t ≤ now := fun e he => le_trans (hb e he) h0
      obtain ⟨hs2, hb3⟩ := zadd_sorted z now addr fp hs hb2
      exact ih _ now hs2 hb3 hchain
    | get n e => exact ih _ t0 hs hb hchain
    | exp c =>
      refine ih _ t0 ?_ ?_ hchain
      · exact List.Pairwise.sublist (zexpireGo_sublist _ _ _ _) hs
      · intro e he
        exact hb e ((zexpireGo_sublist _ _ _ _).subset he)

/-- A non-decreasing chain is a chain from zero. -/
theorem chain_zero_of_chain' (l : List Nat) (h : List.Chain' (· ≤ ·) l) :
    List.Chain (· ≤ ·) 0 l := by
  cases l with
  | nil => exact List.Chain.nil
  | cons a t => exact List.chain_cons.mpr ⟨Nat.zero_le a, h⟩

/-- C10: in every zset state reachable from the empty set by any sequence
of add, get and expire calls whose add calls observe non-decreasing
time.Now() values, the timestamps along the time order are non-decreasing
(get never modifies the time order, add appends a fresh timestamp at its
tail); consequently expire(cutoff) removes exactly the entries whose
timestamp is at or before the cutoff. -/
theorem c10_reachable_sorted_expire_exact (ops : List ZOp) (cutoff : Nat)
    (hmono : List.Chain' (· ≤ ·) (addTimes ops)) :
    TimeSorted (runZOps ops) ∧
    (∀ z n e, (zget z n e).2.timeL = z.timeL) ∧
    (zexpire (runZOps ops) cutoff).timeL =
      (runZOps ops).timeL.filter (fun e => cutoff < e.t) := by
  have hs : TimeSorted (runZOps ops) :=
    runFrom_sorted ops newZSet 0 List.Pairwise.nil (by simp [newZSet])
      (chain_zero_of_chain' _ hmono)
  exact ⟨hs, fun z n e => rfl, zexpireGo_timeL_filter cutoff _ _ _ hs⟩

/-- Witness for C10 at a concrete five-operation call sequence. -/
theorem c10_witness :
    TimeSorted (runZOps [ZOp.add 1 "a" [1], ZOp.add 2 "b" [2], ZOp.get 1 0,
      ZOp.add 3 "a" [3], ZOp.exp 2]) ∧
    (zexpire (runZOps [ZOp.add 1 "a" [1], ZOp.add 2 "b" [2], ZOp.get 1 0,
        ZOp.add 3 "a" [3], ZOp.exp 2]) 2).timeL =
      (runZOps [ZOp.add 1 "a" [1], ZOp.add 2 "b" [2], ZOp.get 1 0,
        ZOp.add 3 "a" [3], ZOp.exp 2]).timeL.filter (fun e => 2 < e.t) := by
  have h := c10_reachable_sorted_expire_exact [ZOp.add 1 "a" [1], ZOp.add 2 "b" [2],
    ZOp.get 1 0, ZOp.add 3 "a" [3], ZOp.exp 2] 2
    (show List.Chain (· ≤ ·) 1 [2, 3] from
      List.Chain.cons (by omega) (List.Chain.cons (by omega) List.Chain.nil))
  exact ⟨h.1, h.2.2⟩


/-! ### Claims C7, C8 and C6: the peer reading mux, the peer table, and the lone-peer hello -/

/-- A successfully unmarshaled frame is between 66 and 149 bytes and starts
with the zero version byte. -/
theorem unmarshalBinaryCur_ok_shape (b : List Nat) (m : MessageCur)
    (h : unmarshalBinaryCur b = .ok m) :
    66 ≤ b.length ∧ b.length ≤ 149 ∧ b.headD 0 = 0 := by
  unfold unmarshalBinaryCur at h
  split at h
  · cases h
  · split at h
    · cases h
    · rename_i hbig hshort
      refine ⟨by omega, by simpa [MaxMessageSizeCur] using hbig, ?_⟩
      dsimp only at h
      split at h
      · cases h
      · rename_i hv
        simpa using hv

/-- C7: Peer.ReadFrom returns verbatim to the caller (byte count, source
address, nil error) every received datagram of valid size with version byte
0 whose bytes 1..65 differ from the peer's current fingerprint; a datagram
whose bytes 1..65 equal the current fingerprint and that unmarshals
successfully is processed as a rendezvous message, the loop continuing on
the remaining datagrams, and is never returned to the caller. -/
theorem c7_readfrom_mux (p : PeerState) (pkt : Packet) (rest : List Packet) :
    (MinMessageSize ≤ pkt.data.length → pkt.data.length ≤ 85 →
      pkt.data.headD 0 = 0 →
      (pkt.data.drop 1).take FingerprintSize ≠ p.lastFingerprint →
      readFrom p (pkt :: rest) = some (pkt.data.length, pkt.src, p)) ∧
    (∀ msg, (pkt.data.drop 1).take FingerprintSize = p.lastFingerprint →
      unmarshalBinaryCur pkt.data = .ok msg →
      readFrom p (pkt :: rest) = readFrom (processMessage p pkt.src msg).1 rest) := by
  constructor
  · intro h66 h85 hv hfp
    conv_lhs => unfold readFrom
    rw [if_neg (by
      simp only [MaxMessageSizeCur, MinMessageSize] at *
      push_neg
      exact ⟨by omega, by omega, hv⟩)]
    rw [if_pos hfp]
  · intro msg hfp hunm
    have hshape := unmarshalBinaryCur_ok_shape _ _ hunm
    conv_lhs => unfold readFrom
    rw [if_neg (by
      simp only [MaxMessageSizeCur, MinMessageSize] at *
      push_neg
      exact ⟨by omega, by omega, hshape.2.2⟩)]
    rw [if_neg (by simpa using hfp), hunm]

/-- Witness for C7: a 70-byte foreign datagram is returned verbatim; a
matching HelloServer frame is consumed. -/
theorem c7_witness :
    readFrom ⟨List.replicate 64 0, "s", none, [], 10, 3⟩
        (⟨"a", 0 :: List.replicate 64 1 ++ [0, 5, 5, 5, 5]⟩ :: []) =
      some (70, "a", ⟨List.replicate 64 0, "s", none, [], 10, 3⟩) ∧
    readFrom ⟨List.replicate 64 0, "s", none, [], 10, 3⟩
        (⟨"a", 0 :: List.replicate 64 0 ++ [0]⟩ :: []) =
      readFrom (processMessage ⟨List.replicate 64 0, "s", none, [], 10, 3⟩ "a"
        ⟨List.replicate 64 0, 0, "", [], ""⟩).1 [] := by
  constructor
  · exact (c7_readfrom_mux ⟨List.replicate 64 0, "s", none, [], 10, 3⟩
      ⟨"a", 0 :: List.replicate 64 1 ++ [0, 5, 5, 5, 5]⟩ []).1
      (by decide) (by decide) (by decide) (by decide)
  · exact (c7_readfrom_mux ⟨List.replicate 64 0, "s", none, [], 10, 3⟩
      ⟨"a", 0 :: List.replicate 64 0 ++ [0]⟩ []).2
      ⟨List.replicate 64 0, 0, "", [], ""⟩ (by decide) (by decide)

/-- Inserting an existing key leaves the key sequence unchanged. -/
theorem mapInsert_keys_present (l : List (String × String)) (k v : String)
    (h : l.any (fun kv => kv.1 = k) = true) :
    (mapInsert l k v).map Prod.fst = l.map Prod.fst := by
  unfold mapInsert
  rw [if_pos h, List.map_map]
  apply List.map_congr_left
  intro kv _
  by_cases hk : kv.1 = k
  · simp [hk]
  · simp [hk]

/-- Inserting a fresh key appends it to the key sequence. -/
theorem mapInsert_keys_absent (l : List (String × String)) (k v : String)
    (h : ¬ l.any (fun kv => kv.1 = k) = true) :
    (mapInsert l k v).map Prod.fst = l.map Prod.fst ++ [k] := by
  unfold mapInsert
  rw [if_neg h, List.map_append]
  rfl

/-- The map-membership test of mapInsert agrees with key membership. -/
theorem any_key_iff (l : List (String × String)) (k : String) :
    l.any (fun kv => kv.1 = k) = true ↔ k ∈ l.map Prod.fst := by
  simp [List.any_eq_true, List.mem_map]

/-- Map insertion preserves key uniqueness. -/
theorem mapInsert_keys_nodup (l : List (String × String)) (k v : String)
    (h : (l.map Prod.fst).Nodup) : ((mapInsert l k v).map Prod.fst).Nodup := by
  by_cases hp : l.any (fun kv => kv.1 = k) = true
  · rw [mapInsert_keys_present l k v hp]; exact h
  · rw [mapInsert_keys_absent l k v hp]
    refine List.Nodup.append h (List.nodup_singleton k) ?_
    intro a ha hb
    simp only [List.mem_singleton] at hb
    subst hb
    exact hp ((any_key_iff l a).mpr ha)

/-- Map insertion grows the table by at most one entry. -/
theorem mapInsert_length_le (l : List (String × String)) (k v : String) :
    (mapInsert l k v).length ≤ l.length + 1 := by
  unfold mapInsert
  split
  · simp
  · simp

/-- Inserting a fresh key grows the table by exactly one entry. -/
theorem mapInsert_length_absent (l : List (String × String)) (k v : String)
    (h : ¬ l.any (fun kv => kv.1 = k) = true) :
    (mapInsert l k v).length = l.length + 1 := by
  unfold mapInsert
  rw [if_neg h]
  simp

/-- With unique keys, at most one entry matches any given source. -/
theorem filter_key_le_one (l : List (String × String)) (s : String)
    (h : (l.map Prod.fst).Nodup) :
    (l.filter (fun kv => kv.1 = s)).length ≤ 1 := by
  induction l with
  | nil => simp
  | cons kv rest ih =>
    simp only [List.map_cons, List.nodup_cons] at h
    rw [List.filter_cons]
    by_cases hk : kv.1 = s
    · rw [if_pos (by simp [hk])]
      have hrest : rest.filter (fun kv => kv.1 = s) = [] := by
        rw [List.filter_eq_nil_iff]
        intro x hx
        simp only [decide_eq_true_eq]
        intro hxs
        apply h.1
        rw [hk, ← hxs]
        exact List.mem_map_of_mem Prod.fst hx
      simp [hrest]
    · rw [if_neg (by simp [hk])]
      exact ih h.2

/-- The evict-then-insert step of processMessage keeps the table within
the bound and its keys unique. -/
theorem insert_bound (peers : List (String × String)) (mx : Nat) (a : String)
    (h1 : (peers.map Prod.fst).Nodup) (h2 : peers.length ≤ mx) (hmax : 1 ≤ mx) :
    ((mapInsert (if peers.length ≥ mx then peers.tail else peers) a a).map
      Prod.fst).Nodup ∧
    (mapInsert (if peers.length ≥ mx then peers.tail else peers) a a).length ≤ mx := by
  constructor
  · apply mapInsert_keys_nodup
    split
    · exact List.Nodup.sublist ((List.tail_sublist _).map _) h1
    · exact h1
  · by_cases hc : peers.length ≥ mx
    · rw [if_pos hc]
      have hle := mapInsert_length_le peers.tail a a
      have hl := List.length_tail peers
      omega
    · rw [if_neg hc]
      have hle := mapInsert_length_le peers a a
      omega

/-- One processed message preserves the peer-table wellformedness and the
configuration fields. -/
theorem processMessage_peers_wf (p : PeerState) (a : String) (msg : MessageCur)
    (h1 : (p.peers.map Prod.fst).Nodup) (h2 : p.peers.length ≤ p.maxPeers)
    (hmax : 1 ≤ p.maxPeers) :
    ((processMessage p a msg).1.peers.map Prod.fst).Nodup ∧
    (processMessage p a msg).1.peers.length ≤ p.maxPeers ∧
    (processMessage p a msg).1.maxPeers = p.maxPeers ∧
    (processMessage p a msg).1.lastServerAddr = p.lastServerAddr := by
  unfold processMessage
  split
  · exact ⟨h1, h2, rfl, rfl⟩
  · split
    · dsimp only
      split <;> split
      · exact ⟨h1, h2, rfl, rfl⟩
      · exact ⟨(insert_bound p.peers p.maxPeers a h1 h2 hmax).1,
          (insert_bound p.peers p.maxPeers a h1 h2 hmax).2, rfl, rfl⟩
      · exact ⟨h1, h2, rfl, rfl⟩
      · exact ⟨(insert_bound p.peers p.maxPeers a h1 h2 hmax).1,
          (insert_bound p.peers p.maxPeers a h1 h2 hmax).2, rfl, rfl⟩
    · exact ⟨h1, h2, rfl, rfl⟩

/-- Any processed message sequence preserves the peer-table bound and key
uniqueness. -/
theorem processAll_wf (evs : List (String × MessageCur)) :
    ∀ p : PeerState, 1 ≤ p.maxPeers →
      (p.peers.map Prod.fst).Nodup → p.peers.length ≤ p.maxPeers →
      ((processAll p evs).peers.map Prod.fst).Nodup ∧
      (processAll p evs).peers.length ≤ p.maxPeers ∧
      (processAll p evs).maxPeers = p.maxPeers := by
  induction evs with
  | nil => intro p _ h1 h2; exact ⟨h1, h2, rfl⟩
  | cons ev rest ih =>
    intro p h0 h1 h2
    obtain ⟨w1, w2, w3, w4⟩ := processMessage_peers_wf p ev.1 ev.2 h1 h2 h0
    have hstep : processAll p (ev :: rest) =
        processAll (processMessage p ev.1 ev.2).1 rest := rfl
    obtain ⟨r1, r2, r3⟩ := ih (processMessage p ev.1 ev.2).1 (by omega) w1 (by omega)
    rw [hstep]
    refine ⟨r1, by omega, by omega⟩

/-- The peer table after a non-server HelloPeer is the evict-then-insert
of the source. -/
theorem processMessage_hello_peers (p : PeerState) (s : String) (msg : MessageCur)
    (hm : msg.typ = HelloPeer) (hs : s ≠ p.lastServerAddr) :
    (processMessage p s msg).1.peers =
      mapInsert (if p.peers.length ≥ p.maxPeers then p.peers.tail else p.peers) s s ∧
    (processMessage p s msg).1.maxPeers = p.maxPeers ∧
    (processMessage p s msg).1.lastServerAddr = p.lastServerAddr := by
  unfold processMessage
  rw [if_neg (by simp [hm, HelloPeer, Meet]), if_pos hm]
  dsimp only
  split <;>
  · dsimp only
    exact ⟨rfl, rfl, rfl⟩

/-- Processing distinct fresh non-server HelloPeer sources grows the table
to the bound and then holds it there. -/
theorem processAll_hello_distinct (msg : MessageCur) (hm : msg.typ = HelloPeer) :
    ∀ (srcs : List String) (p : PeerState), 1 ≤ p.maxPeers →
      srcs.Nodup → (∀ s ∈ srcs, s ≠ p.lastServerAddr) →
      (∀ s ∈ srcs, s ∉ p.peers.map Prod.fst) →
      (p.peers.map Prod.fst).Nodup → p.peers.length ≤ p.maxPeers →
      (processAll p (srcs.map (fun s => (s, msg)))).peers.length =
        min (p.peers.length + srcs.length) p.maxPeers := by
  intro srcs
  induction srcs with
  | nil =>
    intro p hmax _ _ _ _ hlen
    show p.peers.length = min (p.peers.length + 0) p.maxPeers
    omega
  | cons s rest ih =>
    intro p hmax hnd hsrv hfresh h1 h2
    rw [List.nodup_cons] at hnd
    obtain ⟨hp, hq1, hq2⟩ := processMessage_hello_peers p s msg hm
      (hsrv s (List.mem_cons_self s rest))
    have hsfresh : s ∉ p.peers.map Prod.fst := hfresh s (List.mem_cons_self s rest)
    have hbase : ∀ x, x ∉ p.peers.map Prod.fst →
        x ∉ (if p.peers.length ≥ p.maxPeers then p.peers.tail else p.peers).map Prod.fst := by
      intro x hx
      split
      · exact fun hmem => hx (((List.tail_sublist _).map _).subset hmem)
      · exact hx
    have habs : ¬ (if p.peers.length ≥ p.maxPeers then p.peers.tail
        else p.peers).any (fun kv => kv.1 = s) = true := by
      intro hany
      exact hbase s hsfresh ((any_key_iff _ s).mp hany)
    have hkeys : (processMessage p s msg).1.peers.map Prod.fst =
        (if p.peers.length ≥ p.maxPeers then p.peers.tail else p.peers).map Prod.fst
          ++ [s] := by
      rw [hp]
      exact mapInsert_keys_absent _ s s habs
    have hlen : (processMessage p s msg).1.peers.length =
        (if p.peers.length ≥ p.maxPeers then p.peers.tail else p.peers).length + 1 := by
      rw [hp]
      exact mapInsert_length_absent _ s s habs
    have hbnodup : ((if p.peers.length ≥ p.maxPeers then p.peers.tail
        else p.peers).map Prod.fst).Nodup := by
      split
      · exact List.Nodup.sublist ((List.tail_sublist _).map _) h1
      · exact h1
    have hknodup : ((processMessage p s msg).1.peers.map Prod.fst).Nodup := by
      rw [hkeys]
      refine List.Nodup.append hbnodup (List.nodup_singleton s) ?_
      intro a ha hb
      simp only [List.mem_singleton] at hb
      subst hb
      exact habs ((any_key_iff _ a).mpr ha)
    have hq3 : (processMessage p s msg).1.peers.length =
        min (p.peers.length + 1) p.maxPeers := by
      by_cases hc : p.peers.length ≥ p.maxPeers
      · rw [hlen, if_pos hc, List.length_tail]
        omega
      · rw [hlen, if_neg hc]
        omega
    have hnewfresh : ∀ x ∈ rest, x ∉ (processMessage p s msg).1.peers.map Prod.fst := by
      intro x hx
      rw [hkeys]
      intro hmem
      rcases List.mem_append.mp hmem with h | h
      · exact hbase x (hfresh x (List.mem_cons_of_mem s hx)) h
      · simp only [List.mem_singleton] at h
        subst h
        exact hnd.1 hx
    have hrec := ih (processMessage p s msg).1 (by omega) hnd.2
      (by
        intro x hx
        rw [hq2]
        exact hsrv x (List.mem_cons_of_mem s hx))
      hnewfresh hknodup (by omega)
    show (processAll (processMessage p s msg).1 (rest.map (fun x => (x, msg)))).peers.length =
      min (p.peers.length + (rest.length + 1)) p.maxPeers
    rw [hrec, hq3, hq1]
    omega

/-- C8: starting from any wellformed state, the peer table never exceeds
MaxPeers entries and holds at most one entry per source address under any
processed message sequence; and from an empty table, processing HelloPeers
from max_peers + 1 distinct non-server sources leaves exactly max_peers
entries (one existing entry having been evicted). Repeated identical
HelloPeers never grow the table beyond one entry for that source, by the
per-source bound. -/
theorem c8_peer_table_bounded (p : PeerState) :
    (∀ evs : List (String × MessageCur), 1 ≤ p.maxPeers →
      (p.peers.map Prod.fst).Nodup → p.peers.length ≤ p.maxPeers →
      (processAll p evs).peers.length ≤ p.maxPeers ∧
      (∀ s, ((processAll p evs).peers.filter (fun kv => kv.1 = s)).length ≤ 1)) ∧
    (∀ (srcs : List String) (msg : MessageCur), p.peers = [] → 1 ≤ p.maxPeers →
      msg.typ = HelloPeer → srcs.Nodup → (∀ s ∈ srcs, s ≠ p.lastServerAddr) →
      srcs.length = p.maxPeers + 1 →
      (processAll p (srcs.map (fun s => (s, msg)))).peers.length = p.maxPeers) := by
  constructor
  · intro evs hmax h1 h2
    obtain ⟨r1, r2, r3⟩ := processAll_wf evs p hmax h1 h2
    exact ⟨r2, fun s => filter_key_le_one _ s r1⟩
  · intro srcs msg hempty hmax hm hnd hsrv hlen
    have hd := processAll_hello_distinct msg hm srcs p hmax hnd hsrv
      (by rw [hempty]; intro s _ hmem; simp at hmem)
      (by rw [hempty]; exact List.Pairwise.nil)
      (by rw [hempty]; simp)
    rw [hempty] at hd
    simp only [List.length_nil, Nat.zero_add] at hd
    rw [hd, hlen]
    omega

/-- Witness for C8: duplicate HelloPeers from one source and an
overflowing distinct-source sequence at MaxPeers 2. -/
theorem c8_witness :
    (processAll ⟨[], "s", none, [], 2, 3⟩
      [("a", ⟨[], HelloPeer, "x", [], ""⟩), ("a", ⟨[], HelloPeer, "x", [], ""⟩)]).peers.length
        ≤ 2 ∧
    ((processAll ⟨[], "s", none, [], 2, 3⟩
      [("a", ⟨[], HelloPeer, "x", [], ""⟩), ("a", ⟨[], HelloPeer, "x", [], ""⟩)]).peers.filter
        (fun kv => kv.1 = "a")).length ≤ 1 ∧
    (processAll ⟨[], "s", none, [], 2, 3⟩
      (["a", "b", "c"].map (fun s => (s, ⟨[], HelloPeer, "x", [], ""⟩)))).peers.length = 2 := by
  refine ⟨?_, ?_, ?_⟩
  · exact ((c8_peer_table_bounded ⟨[], "s", none, [], 2, 3⟩).1
      [("a", ⟨[], HelloPeer, "x", [], ""⟩), ("a", ⟨[], HelloPeer, "x", [], ""⟩)]
      (by decide) (by decide) (by decide)).1
  · exact ((c8_peer_table_bounded ⟨[], "s", none, [], 2, 3⟩).1
      [("a", ⟨[], HelloPeer, "x", [], ""⟩), ("a", ⟨[], HelloPeer, "x", [], ""⟩)]
      (by decide) (by decide) (by decide)).2 "a"
  · exact (c8_peer_table_bounded ⟨[], "s", none, [], 2, 3⟩).2 ["a", "b", "c"]
      ⟨[], HelloPeer, "x", [], ""⟩ rfl (by decide) rfl (by decide) (by decide) rfl

/-- C6: when the server handles a HelloServer whose frame unmarshals and
passes the fingerprint check, and the mingle set yielded fewer minglers than
PeersToMeet (in particular when it is empty), the server blasts back to the
sender a HelloPeer whose body carries the sender's own source address; a
peer with no recorded remote address that processes such a HelloPeer adopts
that address, so a lone peer's RemoteAddr() becomes populated with its
externally observed address. -/
theorem c6_hello_when_alone (cfg : ServerConfig) (minglers : List String)
    (b : List Nat) (src : String) (msg : Message) (p : PeerState)
    (hunm : unmarshalBinary b = .ok msg)
    (hfpc : (cfg.fingerprintCheck.map (fun check => check msg.fingerprint)).getD true = true)
    (htyp : msg.typ = HelloServer)
    (hfew : minglers.length < cfg.peersToMeet)
    (hblast : 1 ≤ cfg.packetBlastCount) :
    (src, ⟨msg.fingerprint, HelloPeer, src, ""⟩) ∈ (handlePacket cfg minglers b src).1 ∧
    (p.remoteAddr = none →
      (processMessage p src ⟨msg.fingerprint, HelloPeer, src, [], ""⟩).1.remoteAddr =
        some src) := by
  constructor
  · unfold handlePacket
    rw [hunm]
    dsimp only
    rw [if_neg (by rw [hfpc]; simp), if_pos htyp]
    apply List.mem_append_right
    rw [if_pos hfew]
    unfold multiSendSrv
    exact List.mem_replicate.mpr ⟨by omega, rfl⟩
  · intro hnone
    unfold processMessage
    rw [if_neg (by simp [HelloPeer, Meet]), if_pos rfl]
    dsimp only
    rw [if_pos hnone]
    split
    · rfl
    · rfl

/-- Witness for C6: an empty mingler list answers a concrete HelloServer
with a HelloPeer carrying the source address, which populates a fresh peer's
remote address. -/
theorem c6_witness :
    ("9.8.7.6:55", ⟨List.replicate 64 2, HelloPeer, "9.8.7.6:55", ""⟩) ∈
      (handlePacket ⟨3, 3, none⟩ []
        (marshalBinary ⟨List.replicate 64 2, HelloServer, "", ""⟩).1 "9.8.7.6:55").1 ∧
    (processMessage ⟨List.replicate 64 2, "s", none, [], 10, 3⟩ "9.8.7.6:55"
      ⟨List.replicate 64 2, HelloPeer, "9.8.7.6:55", [], ""⟩).1.remoteAddr =
        some "9.8.7.6:55" := by
  have h := c6_hello_when_alone ⟨3, 3, none⟩ []
    (marshalBinary ⟨List.replicate 64 2, HelloServer, "", ""⟩).1 "9.8.7.6:55"
    ⟨List.replicate 64 2, HelloServer, "", ""⟩
    ⟨List.replicate 64 2, "s", none, [], 10, 3⟩
    (by decide) rfl rfl (by decide) (by decide)
  exact ⟨h.1, h.2 rfl⟩

end Bonfire
